import Mathlib

/-!
Verification development for the cleaning-crew coordination program
(`cleaning-bot.py`): a grid world with obstacles, A* path planning
(`astar`), greedy load-balanced task assignment (`assign_tasks`), route
concatenation (`plan_full_path`), and a synchronized coverage simulation
loop with an efficiency metric.

The Python code is embedded shallowly:

* a grid cell `(r, c)` is a pair of integers;
* the grid is the `0`/`1` matrix from the source (`0` free, `1` obstacle);
* the `heapq` priority queue is modelled as a multiset (a list) together
  with an operation removing the least entry in the lexicographic tuple
  order Python uses to compare `(fscore, cell)` entries;
* Python dictionaries (`gscore`, `fscore`, `came`) are modelled as
  functions into `Option`;
* the unbounded `while` loops are given explicit fuel together with
  theorems showing the fuel never runs out for the stated inputs.
-/

set_option maxHeartbeats 1000000

abbrev Cell := ℤ × ℤ

abbrev Grid := List (List ℕ)

/-- `H = len(grid)` -/
def gridH (grid : Grid) : ℕ := grid.length

/-- `W = len(grid[0])` -/
def gridW (grid : Grid) : ℕ := (grid.headD []).length

/-- `h(a,b) = abs(a[0]-b[0]) + abs(a[1]-b[1])`, the Manhattan heuristic. -/
def manhattan (a b : Cell) : ℕ := (a.1 - b.1).natAbs + (a.2 - b.2).natAbs

/-- The neighbour admission test `0 <= nr < H and 0 <= nc < W and grid[nr][nc] == 0`. -/
def cellFree (grid : Grid) (c : Cell) : Bool :=
  if 0 ≤ c.1 ∧ c.1 < (gridH grid : ℤ) ∧ 0 ≤ c.2 ∧ c.2 < (gridW grid : ℤ) then
    (grid.getD c.1.toNat []).getD c.2.toNat 1 == 0
  else false

/-- `neighbors = [(1,0),(-1,0),(0,1),(0,-1)]` -/
def nbrDirs : List Cell := [(1, 0), (-1, 0), (0, 1), (0, -1)]

/-- Offsetting a cell by a direction, `(current[0] + dr, current[1] + dc)`. -/
def shift (c d : Cell) : Cell := (c.1 + d.1, c.2 + d.2)

/-! ### The priority frontier

`heapq` keeps a multiset of `(fscore, cell)` tuples and pops the least one
in lexicographic tuple order. -/

/-- Strict lexicographic order on heap entries, as Python compares
`(fscore, (r, c))` tuples. -/
def entryLt (a b : ℕ × Cell) : Bool :=
  a.1 < b.1 ||
    (a.1 == b.1 && (a.2.1 < b.2.1 || (a.2.1 == b.2.1 && a.2.2 < b.2.2)))

/-- Least entry of `e :: l` in the `entryLt` order (first minimum wins). -/
def listMin (e : ℕ × Cell) (l : List (ℕ × Cell)) : ℕ × Cell :=
  l.foldl (fun m x => if entryLt x m then x else m) e

/-- Removal of one occurrence of an entry from the heap multiset. -/
def eraseEntry : List (ℕ × Cell) → (ℕ × Cell) → List (ℕ × Cell)
  | [], _ => []
  | x :: xs, m => if x = m then xs else x :: eraseEntry xs m

/-- `heapq.heappop`: removes and returns the least entry of the multiset. -/
def heapPop (l : List (ℕ × Cell)) : Option ((ℕ × Cell) × List (ℕ × Cell)) :=
  match l with
  | [] => none
  | e :: es => some (listMin e es, eraseEntry (e :: es) (listMin e es))

/-! ### A* search (`astar`) -/

/-- The mutable search state of `astar`: the open heap and the `gscore`,
`fscore` and `came` dictionaries. -/
structure AState where
  heap : List (ℕ × Cell)
  gscore : Cell → Option ℕ
  fscore : Cell → Option ℕ
  came : Cell → Option Cell

/-- One step of the neighbour loop body of `astar`: relax the neighbour
`current + d`.  `tentative = gscore[current] + 1`; the update fires when
`tentative < gscore.get(neigh, 1e9)` and then records
`came[neigh] = current`, `gscore[neigh] = tentative`,
`fscore[neigh] = tentative + h(neigh, goal)` and pushes
`(fscore[neigh], neigh)`.  (`gscore[current]` is always present when this
runs, since every heap cell has a `gscore`; the `getD 0` default is dead.) -/
def relax (goal : Cell) (grid : Grid) (current : Cell) (st : AState) (d : Cell) :
    AState :=
  if cellFree grid (shift current d) then
    if (st.gscore current).getD 0 + 1 <
        (st.gscore (shift current d)).getD 1000000000 then
      { heap := ((st.gscore current).getD 0 + 1 + manhattan (shift current d) goal,
          shift current d) :: st.heap
        gscore := fun c => if c = shift current d then
          some ((st.gscore current).getD 0 + 1) else st.gscore c
        fscore := fun c => if c = shift current d then
          some ((st.gscore current).getD 0 + 1 + manhattan (shift current d) goal)
          else st.fscore c
        came := fun c => if c = shift current d then some current else st.came c }
    else st
  else st

/-- The full neighbour loop `for dr, dc in neighbors: ...` of `astar`. -/
def expand (goal : Cell) (grid : Grid) (current : Cell) (st : AState) : AState :=
  nbrDirs.foldl (relax goal grid current) st

/-- Path reconstruction `path = [current]; while current in came: current =
came[current]; path.append(current); return list(reversed(path))`.  The
accumulator is built in reverse of Python's append order, so the final
reversal of the source is already applied.  `none` means the fuel ran out
(never happens: `came` chains are acyclic, which the theorems below prove). -/
def reconstruct (came : Cell → Option Cell) : ℕ → Cell → List Cell → Option (List Cell)
  | 0, current, path =>
    match came current with
    | none => some path
    | some _ => none
  | f + 1, current, path =>
    match came current with
    | none => some path
    | some prev => reconstruct came f prev (prev :: path)

/-- The `while open_heap:` loop of `astar`.  The outer `Option` is fuel
exhaustion (never happens for the supplied fuel, see `astarLoop_ne_none`
style lemmas below); the inner `Option` is the source's `None`
(frontier exhausted without reaching the goal). -/
def astarLoop (goal : Cell) (grid : Grid) : ℕ → AState → Option (Option (List Cell))
  | 0, _ => none
  | fuel + 1, st =>
    match heapPop st.heap with
    | none => some none
    | some (e, rest) =>
      let current := e.2
      if current = goal then
        match reconstruct st.came ((st.gscore current).getD 0 + 1) current [current] with
        | none => none
        | some p => some (some p)
      else
        astarLoop goal grid fuel (expand goal grid current { st with heap := rest })

/-- Fuel budget for `astarLoop`, comfortably above the measure
`|heap| + 5 * Σ gscore-weights` that strictly decreases every iteration. -/
def astarFuel (grid : Grid) : ℕ :=
  5 * (gridH grid * gridW grid + 2) * (gridH grid * gridW grid + 2) +
    gridH grid * gridW grid + 10

/-- `astar(start, goal, grid)`: A* search with the Manhattan heuristic,
returning the reconstructed path from `start` to `goal` inclusive, or
`none` when the frontier empties. -/
def astar (start goal : Cell) (grid : Grid) : Option (List Cell) :=
  let st0 : AState :=
    { heap := [(manhattan start goal, start)]
      gscore := fun c => if c = start then some 0 else none
      fscore := fun c => if c = start then some (manhattan start goal) else none
      came := fun _ => none }
  (astarLoop goal grid (astarFuel grid) st0).getD none

/-! ### Greedy task assignment (`assign_tasks`) -/

/-- The loop state of `assign_tasks`: `assignments`, `est_pos`, `est_len`
for the two hard-coded agents `0` and `1`, plus the `remaining` target set
(modelled as a list giving the iteration order of the Python set). -/
structure TAState where
  a0 : List Cell
  a1 : List Cell
  p0 : Cell
  p1 : Cell
  l0 : ℕ
  l1 : ℕ
  remaining : List Cell

/-- One `(cell, ag)` candidate of the inner double loop: skip when
`astar` returns `None`, otherwise `score = est_len[ag] + len(path) - 1`
and keep the candidate when `score < best_score` (strict, so the earlier
candidate wins ties).  `best` is `(cell, ag, path, score)`. -/
def tryPair (grid : Grid) (pos : Cell) (len : ℕ) (cell : Cell) (ag : ℕ)
    (best : Option (Cell × ℕ × List Cell × ℕ)) : Option (Cell × ℕ × List Cell × ℕ) :=
  match astar pos cell grid with
  | none => best
  | some path =>
    let score := len + path.length - 1
    match best with
    | none => some (cell, ag, path, score)
    | some b => if score < b.2.2.2 then some (cell, ag, path, score) else best

/-- The inner `for ag in [0,1]` loop for one candidate target cell. -/
def scanStep (grid : Grid) (q0 q1 : Cell) (m0 m1 : ℕ)
    (best : Option (Cell × ℕ × List Cell × ℕ)) (cell : Cell) :
    Option (Cell × ℕ × List Cell × ℕ) :=
  tryPair grid q1 m1 cell 1 (tryPair grid q0 m0 cell 0 best)

/-- The full scan `for cell in remaining: for ag in [0,1]: ...` selecting
the globally best `(cell, ag, path)` with its score. -/
def scanBest (grid : Grid) (st : TAState) : Option (Cell × ℕ × List Cell × ℕ) :=
  st.remaining.foldl (scanStep grid st.p0 st.p1 st.l0 st.l1) none

/-- Commit the chosen pair: append the target to the winner's list, move its
estimated position there, set its estimated length to the winning score and
remove the target from the remaining set. -/
def commitBest (st : TAState) (cell : Cell) (ag : ℕ) (score : ℕ) : TAState :=
  if ag = 0 then
    { st with a0 := st.a0 ++ [cell], p0 := cell, l0 := score,
              remaining := st.remaining.erase cell }
  else
    { st with a1 := st.a1 ++ [cell], p1 := cell, l1 := score,
              remaining := st.remaining.erase cell }

/-- The `while remaining:` loop of `assign_tasks`; `break` when no pair has
a finite score.  Fuel `|remaining| + 1` suffices since every committed round
removes one target. -/
def assignLoop (grid : Grid) : ℕ → TAState → TAState
  | 0, st => st
  | fuel + 1, st =>
    if st.remaining = [] then st
    else
      match scanBest grid st with
      | none => st
      | some (cell, ag, _path, score) => assignLoop grid fuel (commitBest st cell ag score)

/-- Full run of `assign_tasks`, keeping the whole final loop state (the
source returns only `assignments`; the final `est_pos`, `est_len` and
`remaining` are the local variables at loop exit). -/
def assignRun (s0 s1 : Cell) (dirty : List Cell) (grid : Grid) : TAState :=
  assignLoop grid (dirty.length + 1)
    { a0 := [], a1 := [], p0 := s0, p1 := s1, l0 := 0, l1 := 0, remaining := dirty }

/-- `assign_tasks(agent_starts, dirty, grid)`: the returned `assignments`
dictionary `{0: [...], 1: [...]}`. -/
def assign_tasks (s0 s1 : Cell) (dirty : List Cell) (grid : Grid) :
    List Cell × List Cell :=
  ((assignRun s0 s1 dirty grid).a0, (assignRun s0 s1 dirty grid).a1)

/-! ### Route planning (`plan_full_path`) -/

/-- `plan_full_path(start, tasks, grid)` as a fold over the task list with
accumulator `(pos, full)`: for each target `t`, `p = astar(pos, t, grid)`;
`if p:` (truthiness: skips both `None` and the empty list) extend `full`
with `p[1:]` and set `pos = t`. -/
def planStep (grid : Grid) (acc : Cell × List Cell) (t : Cell) : Cell × List Cell :=
  match astar acc.1 t grid with
  | none => acc
  | some p => if p.isEmpty then acc else (t, acc.2 ++ p.tail)

/-- The final position of the route builder (the `pos` variable at exit). -/
def planPos (start : Cell) (tasks : List Cell) (grid : Grid) : Cell :=
  (tasks.foldl (planStep grid) (start, [start])).1

/-- `plan_full_path(start, tasks, grid)`: the stitched route `full`. -/
def plan_full_path (start : Cell) (tasks : List Cell) (grid : Grid) : List Cell :=
  (tasks.foldl (planStep grid) (start, [start])).2

/-! ### Coverage simulation -/

/-- The mutable simulation state: `cleaned`, `agent_positions`,
`agent_path_idx`, `agent_steps` and `history_positions` for both agents. -/
structure SimState where
  cleaned : Finset Cell
  pos0 : Cell
  pos1 : Cell
  idx0 : ℕ
  idx1 : ℕ
  steps0 : ℕ
  steps1 : ℕ
  hist0 : List Cell
  hist1 : List Cell

/-- Initial simulation state: nothing cleaned, agents at their starts,
indices and step counts zero, empty histories. -/
def simInit (s0 s1 : Cell) : SimState :=
  { cleaned := ∅, pos0 := s0, pos1 := s1, idx0 := 0, idx1 := 0,
    steps0 := 0, steps1 := 0, hist0 := [], hist1 := [] }

/-- `if agent_positions[ag] in dirty: cleaned.add(agent_positions[ag])`. -/
def cleanStep (dirty : Finset Cell) (pos : Cell) (cleaned : Finset Cell) : Finset Cell :=
  if pos ∈ dirty then insert pos cleaned else cleaned

/-- The per-agent move: `if agent_path_idx[ag] + 1 < len(paths[ag])` advance
the index, update the position from the route, bump the step count and set
`moved`.  Returns `(idx, pos, steps, moved)`. -/
def agentStep (path : List Cell) (idx : ℕ) (pos : Cell) (steps : ℕ) :
    ℕ × Cell × ℕ × Bool :=
  if idx + 1 < path.length then (idx + 1, path.getD (idx + 1) (0, 0), steps + 1, true)
  else (idx, pos, steps, false)

/-- One tick of the simulation loop body: agent 0 then agent 1, each moving
(when its route is not exhausted), then cleaning its current cell when
dirty, then recording its position in the history.  Returns the new state
and the tick's `moved` flag. -/
def tick (dirty : Finset Cell) (path0 path1 : List Cell) (st : SimState) :
    SimState × Bool :=
  let r0 := agentStep path0 st.idx0 st.pos0 st.steps0
  let c0 := cleanStep dirty r0.2.1 st.cleaned
  let r1 := agentStep path1 st.idx1 st.pos1 st.steps1
  let c1 := cleanStep dirty r1.2.1 c0
  ({ cleaned := c1, pos0 := r0.2.1, pos1 := r1.2.1, idx0 := r0.1, idx1 := r1.1,
     steps0 := r0.2.2.1, steps1 := r1.2.2.1,
     hist0 := st.hist0 ++ [r0.2.1], hist1 := st.hist1 ++ [r1.2.1] },
   r0.2.2.2 || r1.2.2.2)

/-- `max_steps = max(len(paths[0]), len(paths[1])) + 200`. -/
def max_steps (path0 path1 : List Cell) : ℕ :=
  max path0.length path1.length + 200

/-- The `for step in range(max_steps): ...; if not moved: break` loop.
Returns the final state and the list of per-tick `moved` flags for the
executed ticks (the tick on which the loop `break`s is executed first,
exactly as in the source). -/
def simLoop (dirty : Finset Cell) (path0 path1 : List Cell) :
    ℕ → SimState → SimState × List Bool
  | 0, st => (st, [])
  | n + 1, st =>
    let r := tick dirty path0 path1 st
    if r.2 then
      let rest := simLoop dirty path0 path1 n r.1
      (rest.1, r.2 :: rest.2)
    else (r.1, [r.2])

/-- Full simulation run for given dirty set and routes. -/
def simRun (dirty : Finset Cell) (path0 path1 : List Cell) (s0 s1 : Cell) :
    SimState × List Bool :=
  simLoop dirty path0 path1 (max_steps path0 path1) (simInit s0 s1)

/-- `total_steps = agent_steps[0] + agent_steps[1]`. -/
def total_steps (st : SimState) : ℕ := st.steps0 + st.steps1

/-- `efficiency = len(cleaned) / total_steps`: an unguarded true division.
`none` models the `ZeroDivisionError` raised when `total_steps` is `0`. -/
def efficiency (st : SimState) : Option ℚ :=
  if total_steps st = 0 then none
  else some ((st.cleaned.card : ℚ) / (total_steps st : ℚ))

/-! ### Heap lemmas -/

theorem entryLt_iff (a b : ℕ × Cell) :
    entryLt a b = true ↔
      a.1 < b.1 ∨ (a.1 = b.1 ∧ (a.2.1 < b.2.1 ∨ (a.2.1 = b.2.1 ∧ a.2.2 < b.2.2))) := by
  simp [entryLt]

theorem entryLt_trans {a b c : ℕ × Cell} (h1 : entryLt a b = true)
    (h2 : entryLt b c = true) : entryLt a c = true := by
  rw [entryLt_iff] at h1 h2 ⊢
  omega

theorem entryLt_of_not_lt {a b c : ℕ × Cell} (h1 : ¬ entryLt a b = true)
    (h2 : entryLt a c = true) : entryLt b c = true := by
  rw [entryLt_iff] at h1 h2 ⊢
  omega

theorem fst_le_of_not_entryLt {a b : ℕ × Cell} (h : ¬ entryLt a b = true) :
    b.1 ≤ a.1 := by
  rw [entryLt_iff] at h
  omega

theorem listMin_cons (e x : ℕ × Cell) (l : List (ℕ × Cell)) :
    listMin e (x :: l) = listMin (if entryLt x e then x else e) l := rfl

theorem listMin_mem : ∀ (l : List (ℕ × Cell)) (e : ℕ × Cell), listMin e l ∈ e :: l := by
  intro l
  induction l with
  | nil => intro e; simp [listMin]
  | cons x xs ih =>
    intro e
    rw [listMin_cons]
    by_cases h : entryLt x e = true
    · rw [if_pos h]
      exact List.mem_cons_of_mem e (ih x)
    · rw [if_neg h]
      rcases List.mem_cons.1 (ih e) with h' | h'

      · rw [h']; exact List.mem_cons_self _ _
      · exact List.mem_cons_of_mem _ (List.mem_cons_of_mem _ h')

theorem listMin_not_lt :
    ∀ (l : List (ℕ × Cell)) (e x : ℕ × Cell), x ∈ e :: l →
      ¬ entryLt x (listMin e l) = true := by
  intro l
  induction l with
  | nil =>
    intro e x hx
    simp at hx
    subst hx
    simp [listMin, entryLt_iff]
  | cons y ys ih =>
    intro e x hx
    rw [listMin_cons]
    by_cases h : entryLt y e = true
    · rw [if_pos h]
      rcases List.mem_cons.1 hx with rfl | hx'
      · intro hlt
        exact ih y y (List.mem_cons_self y ys) (entryLt_trans h hlt)
      · rcases List.mem_cons.1 hx' with rfl | hx''
        · exact ih x x (List.mem_cons_self x ys)
        · exact ih y x (List.mem_cons_of_mem y hx'')
    · rw [if_neg h]
      rcases List.mem_cons.1 hx with rfl | hx'
      · exact ih x x (List.mem_cons_self x ys)
      · rcases List.mem_cons.1 hx' with rfl | hx''
        · intro hlt
          exact ih e e (List.mem_cons_self e ys) (entryLt_of_not_lt h hlt)
        · exact ih e x (List.mem_cons_of_mem e hx'')

theorem eraseEntry_perm {m : ℕ × Cell} :
    ∀ {l : List (ℕ × Cell)}, m ∈ l → l.Perm (m :: eraseEntry l m) := by
  intro l hm
  induction l with
  | nil => cases hm
  | cons x xs ih =>
    by_cases hx : x = m
    · subst hx
      simp [eraseEntry]
    · have hm' : m ∈ xs := by
        rcases List.mem_cons.1 hm with h | h
        · exact absurd h.symm hx
        · exact h
      simp only [eraseEntry, hx, if_false]
      exact ((ih hm').cons x).trans (List.Perm.swap m x _)

theorem heapPop_eq_none_iff (l : List (ℕ × Cell)) : heapPop l = none ↔ l = [] := by
  cases l <;> simp [heapPop]

theorem heapPop_some {l : List (ℕ × Cell)} {e : ℕ × Cell} {rest : List (ℕ × Cell)}
    (h : heapPop l = some (e, rest)) :
    e ∈ l ∧ l.Perm (e :: rest) ∧ ∀ x ∈ l, ¬ entryLt x e = true := by
  match l, h with
  | a :: as, h =>
    simp only [heapPop, Option.some.injEq, Prod.mk.injEq] at h
    obtain ⟨he, hrest⟩ := h
    subst he
    subst hrest
    exact ⟨listMin_mem as a, eraseEntry_perm (listMin_mem as a),
      fun x hx => listMin_not_lt as a x hx⟩

theorem heapPop_length {l : List (ℕ × Cell)} {e : ℕ × Cell} {rest : List (ℕ × Cell)}
    (h : heapPop l = some (e, rest)) : l.length = rest.length + 1 := by
  have := (heapPop_some h).2.1.length_eq
  simpa using this

theorem heapPop_rest_subset {l : List (ℕ × Cell)} {e : ℕ × Cell}
    {rest : List (ℕ × Cell)} (h : heapPop l = some (e, rest)) :
    ∀ x ∈ rest, x ∈ l := by
  intro x hx
  exact ((heapPop_some h).2.1.mem_iff).2 (List.mem_cons_of_mem _ hx)

/-! ### Path-reconstruction lemmas -/

theorem reconstruct_eq_of_none {came : Cell → Option Cell} {c : Cell}
    (h : came c = none) (fuel : ℕ) (acc : List Cell) :
    reconstruct came fuel c acc = some acc := by
  cases fuel <;> simp [reconstruct, h]

theorem reconstruct_eq_of_some_zero {came : Cell → Option Cell} {c p : Cell}
    (h : came c = some p) (acc : List Cell) :
    reconstruct came 0 c acc = none := by
  simp [reconstruct, h]

theorem reconstruct_eq_of_some_succ {came : Cell → Option Cell} {c p : Cell}
    (h : came c = some p) (f : ℕ) (acc : List Cell) :
    reconstruct came (f + 1) c acc = reconstruct came f p (p :: acc) := by
  simp [reconstruct, h]

theorem reconstruct_append {came : Cell → Option Cell} :
    ∀ (fuel : ℕ) (c : Cell) (acc L : List Cell),
      reconstruct came fuel c acc = some L → ∃ pre, L = pre ++ acc := by
  intro fuel
  induction fuel with
  | zero =>
    intro c acc L h
    cases hc : came c with
    | none =>
      rw [reconstruct_eq_of_none hc] at h
      exact ⟨[], by simpa using h.symm⟩
    | some p =>
      rw [reconstruct_eq_of_some_zero hc] at h
      exact absurd h (by simp)
  | succ f ih =>
    intro c acc L h
    cases hc : came c with
    | none =>
      rw [reconstruct_eq_of_none hc] at h
      exact ⟨[], by simpa using h.symm⟩
    | some p =>
      rw [reconstruct_eq_of_some_succ hc] at h
      obtain ⟨pre, hpre⟩ := ih p (p :: acc) L h
      exact ⟨pre ++ [p], by simpa using hpre⟩

theorem reconstruct_tail_isSome {came : Cell → Option Cell} :
    ∀ (fuel : ℕ) (c : Cell) (acc L : List Cell),
      (∀ x ∈ acc, (came x).isSome) →
      reconstruct came fuel c (c :: acc) = some L →
      ∀ x ∈ L.tail, (came x).isSome := by
  intro fuel
  induction fuel with
  | zero =>
    intro c acc L hacc h
    cases hc : came c with
    | none =>
      rw [reconstruct_eq_of_none hc] at h
      obtain rfl : c :: acc = L := by simpa using h
      simpa using hacc
    | some p =>
      rw [reconstruct_eq_of_some_zero hc] at h
      exact absurd h (by simp)
  | succ f ih =>
    intro c acc L hacc h
    cases hc : came c with
    | none =>
      rw [reconstruct_eq_of_none hc] at h
      obtain rfl : c :: acc = L := by simpa using h
      simpa using hacc
    | some p =>
      rw [reconstruct_eq_of_some_succ hc] at h
      refine ih p (c :: acc) L ?_ h
      intro x hx
      rcases List.mem_cons.1 hx with rfl | hx'
      · simp [hc]
      · exact hacc x hx'

/-! ### Frame and effect lemmas for the A* loop body -/

/-- Case analysis on one neighbour relaxation: either it is a no-op, or the
admission and improvement tests both pass and all four state components are
updated. -/
theorem relax_cases (goal : Cell) (grid : Grid) (current : Cell) (st : AState)
    (d : Cell) (P : AState → Prop) (base : P st)
    (push : cellFree grid (shift current d) = true →
      (st.gscore current).getD 0 + 1 < (st.gscore (shift current d)).getD 1000000000 →
      P { heap := ((st.gscore current).getD 0 + 1 + manhattan (shift current d) goal,
            shift current d) :: st.heap
          gscore := fun c => if c = shift current d then
            some ((st.gscore current).getD 0 + 1) else st.gscore c
          fscore := fun c => if c = shift current d then
            some ((st.gscore current).getD 0 + 1 + manhattan (shift current d) goal)
            else st.fscore c
          came := fun c => if c = shift current d then some current else st.came c }) :
    P (relax goal grid current st d) := by
  unfold relax
  split_ifs with h1 h2
  · exact push h1 h2
  · exact base
  · exact base

theorem relax_heap_subset (goal : Cell) (grid : Grid) (current : Cell)
    (st : AState) (d : Cell) :
    ∀ x ∈ st.heap, x ∈ (relax goal grid current st d).heap := by
  refine relax_cases goal grid current st d
    (fun s => ∀ x ∈ st.heap, x ∈ s.heap) (fun x hx => hx) ?_
  intro _ _ x hx
  exact List.mem_cons_of_mem _ hx

theorem relax_gscore_isSome (goal : Cell) (grid : Grid) (current : Cell)
    (st : AState) (d : Cell) {c : Cell} (h : (st.gscore c).isSome) :
    ((relax goal grid current st d).gscore c).isSome := by
  refine relax_cases goal grid current st d
    (fun s => (s.gscore c).isSome) h ?_
  intro _ _
  by_cases hc : c = shift current d <;> simp [hc, h]

theorem relax_gscore_current (goal : Cell) (grid : Grid) (current : Cell)
    (st : AState) (d : Cell) (hd : shift current d ≠ current) :
    (relax goal grid current st d).gscore current = st.gscore current := by
  refine relax_cases goal grid current st d
    (fun s => s.gscore current = st.gscore current) rfl ?_
  intro _ _
  simp only []
  rw [if_neg (fun h => hd h.symm)]

/-- Full effect of one relaxation on a given cell's `gscore`: either it is
untouched, or it holds a strictly improved value whose corresponding heap
entry is present. -/
theorem relax_effect (goal : Cell) (grid : Grid) (current : Cell) (st : AState)
    (d : Cell) (c : Cell) :
    (relax goal grid current st d).gscore c = st.gscore c ∨
    ∃ t, (relax goal grid current st d).gscore c = some t ∧
      (∀ v, st.gscore c = some v → t < v) ∧
      (t + manhattan c goal, c) ∈ (relax goal grid current st d).heap := by
  refine relax_cases goal grid current st d
    (fun s => s.gscore c = st.gscore c ∨
      ∃ t, s.gscore c = some t ∧ (∀ v, st.gscore c = some v → t < v) ∧
        (t + manhattan c goal, c) ∈ s.heap) (Or.inl rfl) ?_
  intro _ hlt
  by_cases hc : c = shift current d
  · subst hc
    refine Or.inr ⟨(st.gscore current).getD 0 + 1, by simp, ?_, by simp⟩
    intro v hv
    rw [hv] at hlt
    simpa using hlt
  · exact Or.inl (by simp [hc])

theorem foldl_relax_heap_subset (goal : Cell) (grid : Grid) (current : Cell) :
    ∀ (dirs : List Cell) (st : AState) (x : ℕ × Cell), x ∈ st.heap →
      x ∈ (dirs.foldl (relax goal grid current) st).heap := by
  intro dirs
  induction dirs with
  | nil => intro st x hx; exact hx
  | cons d ds ih =>
    intro st x hx
    exact ih (relax goal grid current st d) x (relax_heap_subset goal grid current st d x hx)

theorem foldl_relax_effect (goal : Cell) (grid : Grid) (current : Cell) :
    ∀ (dirs : List Cell) (st : AState) (c : Cell),
      (dirs.foldl (relax goal grid current) st).gscore c = st.gscore c ∨
      ∃ t, (dirs.foldl (relax goal grid current) st).gscore c = some t ∧
        (∀ v, st.gscore c = some v → t < v) ∧
        (t + manhattan c goal, c) ∈ (dirs.foldl (relax goal grid current) st).heap := by
  intro dirs
  induction dirs with
  | nil => intro st c; exact Or.inl rfl
  | cons d ds ih =>
    intro st c
    rcases ih (relax goal grid current st d) c with h1 | ⟨t, ht, hdec, hmem⟩
    · rcases relax_effect goal grid current st d c with h2 | ⟨t, ht, hdec, hmem⟩
      · exact Or.inl (by rw [List.foldl_cons, h1, h2])
      · refine Or.inr ⟨t, by rw [List.foldl_cons, h1, ht], hdec, ?_⟩
        exact foldl_relax_heap_subset goal grid current ds _ _ hmem
    · refine Or.inr ⟨t, by rw [List.foldl_cons] at *; exact ht, ?_, by rw [List.foldl_cons] at *; exact hmem⟩
      intro v hv
      rcases relax_effect goal grid current st d c with h2 | ⟨t1, ht1, hdec1, _⟩
      · exact hdec v (by rw [h2, hv])
      · exact lt_trans (hdec t1 ht1) (hdec1 v hv)

theorem expand_heap_subset (goal : Cell) (grid : Grid) (current : Cell)
    (st : AState) : ∀ x ∈ st.heap, x ∈ (expand goal grid current st).heap :=
  foldl_relax_heap_subset goal grid current nbrDirs st

theorem expand_effect (goal : Cell) (grid : Grid) (current : Cell) (st : AState)
    (c : Cell) :
    (expand goal grid current st).gscore c = st.gscore c ∨
    ∃ t, (expand goal grid current st).gscore c = some t ∧
      (∀ v, st.gscore c = some v → t < v) ∧
      (t + manhattan c goal, c) ∈ (expand goal grid current st).heap :=
  foldl_relax_effect goal grid current nbrDirs st c

/-! ### Heap cells are the start or admitted free cells -/

/-- Every cell sitting in the open heap is either the start cell (pushed
unconditionally before the loop) or passed the `cellFree` admission test. -/
def heapCellsOK (start : Cell) (grid : Grid) (st : AState) : Prop :=
  ∀ e ∈ st.heap, e.2 = start ∨ cellFree grid e.2 = true

theorem relax_heapCellsOK {start : Cell} {grid : Grid} {st : AState}
    (goal current d : Cell) (h : heapCellsOK start grid st) :
    heapCellsOK start grid (relax goal grid current st d) := by
  refine relax_cases goal grid current st d (heapCellsOK start grid) h ?_
  intro hfree _
  intro e he
  rcases List.mem_cons.1 he with rfl | he'
  · exact Or.inr hfree
  · exact h e he'

theorem expand_heapCellsOK {start : Cell} {grid : Grid} {st : AState}
    (goal current : Cell) (h : heapCellsOK start grid st) :
    heapCellsOK start grid (expand goal grid current st) := by
  unfold expand nbrDirs
  exact relax_heapCellsOK goal current _ (relax_heapCellsOK goal current _
    (relax_heapCellsOK goal current _ (relax_heapCellsOK goal current _ h)))

/-! ### `came` entries point at admitted free cells -/

/-- Every key of the `came` dictionary passed the `cellFree` admission test. -/
def cameFreeOK (grid : Grid) (st : AState) : Prop :=
  ∀ c q, st.came c = some q → cellFree grid c = true

theorem relax_cameFreeOK {grid : Grid} {st : AState} (goal current d : Cell)
    (h : cameFreeOK grid st) : cameFreeOK grid (relax goal grid current st d) := by
  refine relax_cases goal grid current st d (cameFreeOK grid) h ?_
  intro hfree _
  intro c q hc
  by_cases hcn : c = shift current d
  · subst hcn; exact hfree
  · simp only [hcn, if_false] at hc
    exact h c q hc

theorem expand_cameFreeOK {grid : Grid} {st : AState} (goal current : Cell)
    (h : cameFreeOK grid st) : cameFreeOK grid (expand goal grid current st) := by
  unfold expand nbrDirs
  exact relax_cameFreeOK goal current _ (relax_cameFreeOK goal current _
    (relax_cameFreeOK goal current _ (relax_cameFreeOK goal current _ h)))

/-! ### Unfolding and shape lemmas for `astarLoop` -/

theorem astarLoop_succ (goal : Cell) (grid : Grid) (fuel : ℕ) (st : AState) :
    astarLoop goal grid (fuel + 1) st =
      match heapPop st.heap with
      | none => some none
      | some (e, rest) =>
        if e.2 = goal then
          match reconstruct st.came ((st.gscore e.2).getD 0 + 1) e.2 [e.2] with
          | none => none
          | some p => some (some p)
        else astarLoop goal grid fuel (expand goal grid e.2 { st with heap := rest }) :=
  rfl

/-- When the goal cell fails the `cellFree` test and differs from the start,
the loop can never pop it, so the search reports no path (or runs out of
fuel, which also surfaces as `none` at the `astar` level). -/
theorem astarLoop_goal_blocked {start goal : Cell} {grid : Grid}
    (hgf : cellFree grid goal = false) (hgs : goal ≠ start) :
    ∀ (fuel : ℕ) (st : AState), heapCellsOK start grid st →
      astarLoop goal grid fuel st = none ∨ astarLoop goal grid fuel st = some none := by
  intro fuel
  induction fuel with
  | zero => intro st _; exact Or.inl rfl
  | succ f ih =>
    intro st hOK
    rw [astarLoop_succ]
    cases hpop : heapPop st.heap with
    | none => exact Or.inr rfl
    | some pr =>
      obtain ⟨e, rest⟩ := pr
      have hcur : e.2 = start ∨ cellFree grid e.2 = true :=
        hOK e (heapPop_some hpop).1
      have hne : ¬ e.2 = goal := by
        rcases hcur with h | h
        · intro hh; exact hgs (hh ▸ h)
        · intro hh; rw [hh, hgf] at h; cases h
      simp only [hne, if_false]
      refine ih _ ?_
      refine expand_heapCellsOK goal e.2 ?_
      intro x hx
      exact hOK x (heapPop_rest_subset hpop x hx)

/-- `astar` on a blocked goal cell distinct from the start returns `None`:
the condition propagates as a silent no-path result. -/
theorem astar_goal_blocked {start goal : Cell} {grid : Grid}
    (hgf : cellFree grid goal = false) (hgs : goal ≠ start) :
    astar start goal grid = none := by
  simp only [astar]
  have hOK : heapCellsOK start grid
      { heap := [(manhattan start goal, start)]
        gscore := fun c => if c = start then some 0 else none
        fscore := fun c => if c = start then some (manhattan start goal) else none
        came := fun _ => none } := by
    intro e he
    simp only [List.mem_singleton] at he
    subst he
    exact Or.inl rfl
  rcases astarLoop_goal_blocked hgf hgs (astarFuel grid) _ hOK with h | h <;>
    rw [h] <;> rfl

/-- Any path handed back by the loop ends at the goal cell (it is the
reconstruction accumulator seeded with `[goal]`). -/
theorem astarLoop_some_concat {goal : Cell} {grid : Grid} :
    ∀ (fuel : ℕ) (st : AState) (p : List Cell),
      astarLoop goal grid fuel st = some (some p) → ∃ pre, p = pre ++ [goal] := by
  intro fuel
  induction fuel with
  | zero => intro st p h; cases h
  | succ f ih =>
    intro st p h
    rw [astarLoop_succ] at h
    cases hpop : heapPop st.heap with
    | none => rw [hpop] at h; cases h
    | some pr =>
      obtain ⟨e, rest⟩ := pr
      simp only [hpop] at h
      by_cases hg : e.2 = goal
      · rw [if_pos hg] at h
        cases hrec : reconstruct st.came ((st.gscore e.2).getD 0 + 1) e.2 [e.2] with
        | none => simp [hrec] at h
        | some q =>
          simp only [hrec] at h
          have hqp : q = p := by simpa using h
          rw [hqp] at hrec
          obtain ⟨pre, hpre⟩ := reconstruct_append _ _ _ _ hrec
          exact ⟨pre, by rw [hpre, hg]⟩
      · rw [if_neg hg] at h
        exact ih _ p h

/-- Any path returned by `astar` ends at the goal. -/
theorem astar_some_concat {start goal : Cell} {grid : Grid} {p : List Cell}
    (h : astar start goal grid = some p) : ∃ pre, p = pre ++ [goal] := by
  simp only [astar] at h
  cases hres : astarLoop goal grid (astarFuel grid)
      { heap := [(manhattan start goal, start)]
        gscore := fun c => if c = start then some 0 else none
        fscore := fun c => if c = start then some (manhattan start goal) else none
        came := fun _ => none } with
  | none => rw [hres] at h; cases h
  | some o =>
    rw [hres] at h
    cases o with
    | none => cases h
    | some q =>
      have hqp : q = p := by simpa using h
      rw [hqp] at hres
      exact astarLoop_some_concat _ _ p hres

theorem astar_some_ne_nil {start goal : Cell} {grid : Grid} {p : List Cell}
    (h : astar start goal grid = some p) : p ≠ [] := by
  obtain ⟨pre, rfl⟩ := astar_some_concat h
  simp

theorem astar_some_getLast {start goal : Cell} {grid : Grid} {p : List Cell}
    (h : astar start goal grid = some p) : p.getLast? = some goal := by
  obtain ⟨pre, rfl⟩ := astar_some_concat h
  simp

/-- Every cell of a returned path except the head passed the `cellFree`
admission test (the head is the start cell, which is pushed unvetted). -/
theorem astarLoop_tail_free {goal : Cell} {grid : Grid} :
    ∀ (fuel : ℕ) (st : AState) (p : List Cell), cameFreeOK grid st →
      astarLoop goal grid fuel st = some (some p) →
      ∀ c ∈ p.tail, cellFree grid c = true := by
  intro fuel
  induction fuel with
  | zero => intro st p _ h; cases h
  | succ f ih =>
    intro st p hOK h
    rw [astarLoop_succ] at h
    cases hpop : heapPop st.heap with
    | none => rw [hpop] at h; cases h
    | some pr =>
      obtain ⟨e, rest⟩ := pr
      simp only [hpop] at h
      by_cases hg : e.2 = goal
      · rw [if_pos hg] at h
        cases hrec : reconstruct st.came ((st.gscore e.2).getD 0 + 1) e.2 [e.2] with
        | none => simp [hrec] at h
        | some q =>
          simp only [hrec] at h
          have hqp : q = p := by simpa using h
          rw [hqp] at hrec
          intro c hc
          have hsome : (st.came c).isSome :=
            reconstruct_tail_isSome _ _ [] p (by simp) hrec c hc
          obtain ⟨qq, hqq⟩ := Option.isSome_iff_exists.1 hsome
          exact hOK c qq hqq
      · rw [if_neg hg] at h
        exact ih _ p
          (@expand_cameFreeOK grid { st with heap := rest } goal e.2
            (fun c q hc => hOK c q hc)) h

/-- Claim-C2 core fact: every cell of an `astar` path other than the first
is in bounds and free. -/
theorem astar_tail_free {start goal : Cell} {grid : Grid} {p : List Cell}
    (h : astar start goal grid = some p) : ∀ c ∈ p.tail, cellFree grid c = true := by
  simp only [astar] at h
  cases hres : astarLoop goal grid (astarFuel grid)
      { heap := [(manhattan start goal, start)]
        gscore := fun c => if c = start then some 0 else none
        fscore := fun c => if c = start then some (manhattan start goal) else none
        came := fun _ => none } with
  | none => rw [hres] at h; cases h
  | some o =>
    rw [hres] at h
    cases o with
    | none => cases h
    | some q =>
      have hqp : q = p := by simpa using h
      rw [hqp] at hres
      exact astarLoop_tail_free _ _ p (fun c q h => by cases h) hres

/-! ### Lemmas about the allocator scan -/

theorem perm_cons_erase_beq {α : Type} [BEq α] [LawfulBEq α] {a : α} :
    ∀ {l : List α}, a ∈ l → l.Perm (a :: l.erase a) := by
  intro l h
  induction l with
  | nil => cases h
  | cons b bs ih =>
    by_cases hb : b == a
    · have hba : b = a := eq_of_beq hb
      subst hba
      rw [List.erase_cons_head]
    · rw [List.erase_cons_tail hb]
      have h' : a ∈ bs := by
        rcases List.mem_cons.1 h with rfl | h'
        · exact absurd (by simp) hb
        · exact h'
      exact ((ih h').cons b).trans (List.Perm.swap a b _)

theorem tryPair_eq_none_iff {grid : Grid} {pos : Cell} {len : ℕ} {cell : Cell}
    {ag : ℕ} {best : Option (Cell × ℕ × List Cell × ℕ)} :
    tryPair grid pos len cell ag best = none ↔
      astar pos cell grid = none ∧ best = none := by
  unfold tryPair
  cases astar pos cell grid with
  | none => simp
  | some path =>
    cases best with
    | none => simp
    | some b => by_cases h : len + path.length - 1 < b.2.2.2 <;> simp [h]

theorem tryPair_some_cases {grid : Grid} {pos : Cell} {len : ℕ} {cell : Cell}
    {ag : ℕ} {best : Option (Cell × ℕ × List Cell × ℕ)}
    {r : Cell × ℕ × List Cell × ℕ}
    (h : tryPair grid pos len cell ag best = some r) :
    (∃ path, astar pos cell grid = some path ∧
      r = (cell, ag, path, len + path.length - 1)) ∨ best = some r := by
  unfold tryPair at h
  cases hast : astar pos cell grid with
  | none => simp only [hast] at h; exact Or.inr h
  | some path =>
    simp only [hast] at h
    cases best with
    | none =>
      dsimp only at h
      simp only [Option.some.injEq] at h
      exact Or.inl ⟨path, rfl, h.symm⟩
    | some b =>
      dsimp only at h
      by_cases hlt : len + path.length - 1 < b.2.2.2
      · rw [if_pos hlt] at h
        simp only [Option.some.injEq] at h
        exact Or.inl ⟨path, rfl, h.symm⟩
      · rw [if_neg hlt] at h
        exact Or.inr h

theorem scanStep_some_cases {grid : Grid} {q0 q1 : Cell} {m0 m1 : ℕ}
    {best : Option (Cell × ℕ × List Cell × ℕ)} {cell : Cell}
    {r : Cell × ℕ × List Cell × ℕ}
    (h : scanStep grid q0 q1 m0 m1 best cell = some r) :
    (∃ path, astar q0 cell grid = some path ∧
      r = (cell, 0, path, m0 + path.length - 1)) ∨
    (∃ path, astar q1 cell grid = some path ∧
      r = (cell, 1, path, m1 + path.length - 1)) ∨ best = some r := by
  rcases tryPair_some_cases h with ⟨path, hp, hr⟩ | h1
  · exact Or.inr (Or.inl ⟨path, hp, hr⟩)
  · rcases tryPair_some_cases h1 with ⟨path, hp, hr⟩ | h2
    · exact Or.inl ⟨path, hp, hr⟩
    · exact Or.inr (Or.inr h2)

theorem scanStep_eq_none_iff {grid : Grid} {q0 q1 : Cell} {m0 m1 : ℕ}
    {best : Option (Cell × ℕ × List Cell × ℕ)} {cell : Cell} :
    scanStep grid q0 q1 m0 m1 best cell = none ↔
      astar q0 cell grid = none ∧ astar q1 cell grid = none ∧ best = none := by
  unfold scanStep
  rw [tryPair_eq_none_iff, tryPair_eq_none_iff]
  tauto

theorem foldl_scanStep_some {grid : Grid} {q0 q1 : Cell} {m0 m1 : ℕ} :
    ∀ (l : List Cell) (best : Option (Cell × ℕ × List Cell × ℕ))
      (r : Cell × ℕ × List Cell × ℕ),
      l.foldl (scanStep grid q0 q1 m0 m1) best = some r →
      best = some r ∨ ∃ cell ∈ l,
        (∃ path, astar q0 cell grid = some path ∧
          r = (cell, 0, path, m0 + path.length - 1)) ∨
        (∃ path, astar q1 cell grid = some path ∧
          r = (cell, 1, path, m1 + path.length - 1)) := by
  intro l
  induction l with
  | nil => intro best r h; exact Or.inl h
  | cons c cs ih =>
    intro best r h
    rw [List.foldl_cons] at h
    rcases ih _ r h with hstep | ⟨cell, hcell, hc⟩
    · rcases scanStep_some_cases hstep with h0 | h1 | hb
      · exact Or.inr ⟨c, List.mem_cons_self c cs, Or.inl h0⟩
      · exact Or.inr ⟨c, List.mem_cons_self c cs, Or.inr h1⟩
      · exact Or.inl hb
    · exact Or.inr ⟨cell, List.mem_cons_of_mem c hcell, hc⟩

theorem foldl_scanStep_none {grid : Grid} {q0 q1 : Cell} {m0 m1 : ℕ} :
    ∀ (l : List Cell) (best : Option (Cell × ℕ × List Cell × ℕ)),
      l.foldl (scanStep grid q0 q1 m0 m1) best = none →
      best = none ∧ ∀ cell ∈ l, astar q0 cell grid = none ∧ astar q1 cell grid = none := by
  intro l
  induction l with
  | nil => intro best h; exact ⟨h, by simp⟩
  | cons c cs ih =>
    intro best h
    rw [List.foldl_cons] at h
    obtain ⟨hstep, hall⟩ := ih _ h
    obtain ⟨h0, h1, hb⟩ := scanStep_eq_none_iff.1 hstep
    refine ⟨hb, ?_⟩
    intro cell hcell
    rcases List.mem_cons.1 hcell with rfl | hcell'
    · exact ⟨h0, h1⟩
    · exact hall cell hcell'

theorem scanBest_some_spec {grid : Grid} {st : TAState} {r : Cell × ℕ × List Cell × ℕ}
    (h : scanBest grid st = some r) :
    r.1 ∈ st.remaining ∧
      ((r.2.1 = 0 ∧ astar st.p0 r.1 grid = some r.2.2.1 ∧
          r.2.2.2 = st.l0 + r.2.2.1.length - 1) ∨
       (r.2.1 = 1 ∧ astar st.p1 r.1 grid = some r.2.2.1 ∧
          r.2.2.2 = st.l1 + r.2.2.1.length - 1)) := by
  rcases foldl_scanStep_some st.remaining none r h with hb | ⟨cell, hcell, hc⟩
  · cases hb
  · rcases hc with ⟨path, hp, rfl⟩ | ⟨path, hp, rfl⟩
    · exact ⟨hcell, Or.inl ⟨rfl, hp, rfl⟩⟩
    · exact ⟨hcell, Or.inr ⟨rfl, hp, rfl⟩⟩

theorem scanBest_none_spec {grid : Grid} {st : TAState}
    (h : scanBest grid st = none) :
    ∀ c ∈ st.remaining, astar st.p0 c grid = none ∧ astar st.p1 c grid = none :=
  (foldl_scanStep_none st.remaining none h).2

/-! ### Lemmas about the allocator loop -/

theorem assignLoop_succ (grid : Grid) (fuel : ℕ) (st : TAState) :
    assignLoop grid (fuel + 1) st =
      if st.remaining = [] then st
      else
        match scanBest grid st with
        | none => st
        | some (cell, ag, _path, score) =>
          assignLoop grid fuel (commitBest st cell ag score) := rfl

/-- Induction principle for `assignLoop`: any property preserved by each
committed round holds of the final state. -/
theorem assignLoop_invariant (grid : Grid) (P : TAState → Prop)
    (hstep : ∀ st r, st.remaining ≠ [] → scanBest grid st = some r → P st →
      P (commitBest st r.1 r.2.1 r.2.2.2)) :
    ∀ (fuel : ℕ) (st : TAState), P st → P (assignLoop grid fuel st) := by
  intro fuel
  induction fuel with
  | zero => intro st h; exact h
  | succ f ih =>
    intro st h
    rw [assignLoop_succ]
    by_cases hrem : st.remaining = []
    · rw [if_pos hrem]; exact h
    · rw [if_neg hrem]
      cases hscan : scanBest grid st with
      | none => exact h
      | some r =>
        obtain ⟨cell, ag, path, score⟩ := r
        exact ih _ (hstep st (cell, ag, path, score) hrem hscan h)

/-- With fuel exceeding the number of remaining targets, the loop only stops
with an empty remaining set or a scan that found no finite score. -/
theorem assignLoop_final (grid : Grid) :
    ∀ (fuel : ℕ) (st : TAState), st.remaining.length < fuel →
      (assignLoop grid fuel st).remaining = [] ∨
        scanBest grid (assignLoop grid fuel st) = none := by
  intro fuel
  induction fuel with
  | zero => intro st h; omega
  | succ f ih =>
    intro st hlen
    rw [assignLoop_succ]
    by_cases hrem : st.remaining = []
    · rw [if_pos hrem]; exact Or.inl hrem
    · rw [if_neg hrem]
      cases hscan : scanBest grid st with
      | none => exact Or.inr hscan
      | some r =>
        obtain ⟨cell, ag, path, score⟩ := r
        refine ih _ ?_
        have hmem : cell ∈ st.remaining := (scanBest_some_spec hscan).1
        have herase : (st.remaining.erase cell).length = st.remaining.length - 1 :=
          List.length_erase_of_mem hmem
        have hpos : 0 < st.remaining.length := List.length_pos.2 hrem
        unfold commitBest
        by_cases hag : ag = 0 <;> simp [hag, herase] <;> omega

/-! ### The head of a returned path is the start cell -/

theorem relax_came_isSome (goal : Cell) (grid : Grid) (current : Cell)
    (st : AState) (d : Cell) {c : Cell} (h : (st.came c).isSome) :
    ((relax goal grid current st d).came c).isSome := by
  refine relax_cases goal grid current st d (fun s => (s.came c).isSome) h ?_
  intro _ _
  by_cases hc : c = shift current d <;> simp [hc, h]

/-- Joint invariant: every heap cell, and every value of the `came`
dictionary, is either the start or has a `came` entry of its own.  This is
what makes the reconstruction walk end at the start cell. -/
def cameOriginOK (start : Cell) (st : AState) : Prop :=
  (∀ e ∈ st.heap, e.2 = start ∨ (st.came e.2).isSome) ∧
  (∀ c q, st.came c = some q → q = start ∨ (st.came q).isSome)

theorem relax_cameOriginOK {start : Cell} {st : AState} (goal : Cell)
    (grid : Grid) (current : Cell) (d : Cell)
    (hcur : current = start ∨ (st.came current).isSome)
    (h : cameOriginOK start st) : cameOriginOK start (relax goal grid current st d) := by
  refine relax_cases goal grid current st d (cameOriginOK start) h ?_
  intro _ _
  constructor
  · intro e he
    rcases List.mem_cons.1 he with rfl | he'
    · right; simp
    · rcases h.1 e he' with h1 | h1
      · exact Or.inl h1
      · right
        by_cases hc : e.2 = shift current d <;> simp [hc, h1]
  · intro c q hc
    dsimp only at hc ⊢
    by_cases hcn : c = shift current d
    · rw [hcn, if_pos rfl] at hc
      have hcq : current = q := by simpa using hc
      subst hcq
      rcases hcur with h1 | h1
      · exact Or.inl h1
      · right
        by_cases hq : current = shift current d
        · rw [if_pos hq]; rfl
        · rw [if_neg hq]; exact h1
    · simp only [hcn, if_false] at hc
      rcases h.2 c q hc with h1 | h1
      · exact Or.inl h1
      · right
        by_cases hq : q = shift current d <;> simp [hq, h1]

theorem expand_cameOriginOK {start : Cell} {st : AState} (goal : Cell)
    (grid : Grid) (current : Cell)
    (hcur : current = start ∨ (st.came current).isSome)
    (h : cameOriginOK start st) :
    cameOriginOK start (expand goal grid current st) := by
  have step : ∀ (d : Cell) (s : AState),
      (current = start ∨ (s.came current).isSome) → cameOriginOK start s →
      ((current = start ∨ ((relax goal grid current s d).came current).isSome) ∧
        cameOriginOK start (relax goal grid current s d)) := by
    intro d s hc hs
    refine ⟨?_, relax_cameOriginOK goal grid current d hc hs⟩
    rcases hc with h1 | h1
    · exact Or.inl h1
    · exact Or.inr (relax_came_isSome goal grid current s d h1)
  unfold expand nbrDirs
  obtain ⟨h1, h2⟩ := step (1, 0) st hcur h
  obtain ⟨h3, h4⟩ := step (-1, 0) _ h1 h2
  obtain ⟨h5, h6⟩ := step (0, 1) _ h3 h4
  exact (step (0, -1) _ h5 h6).2

/-- The head of a successful reconstruction either is the queried cell with
no predecessor, or is a `came` value with no predecessor of its own. -/
theorem reconstruct_head_cases {came : Cell → Option Cell} :
    ∀ (fuel : ℕ) (c : Cell) (acc L : List Cell),
      reconstruct came fuel c (c :: acc) = some L →
      (came c = none ∧ L = c :: acc) ∨
      (∃ hd tl, L = hd :: tl ∧ came hd = none ∧ ∃ x, came x = some hd) := by
  intro fuel
  induction fuel with
  | zero =>
    intro c acc L h
    cases hc : came c with
    | none =>
      rw [reconstruct_eq_of_none hc] at h
      exact Or.inl ⟨rfl, by simpa using h.symm⟩
    | some p =>
      rw [reconstruct_eq_of_some_zero hc] at h
      cases h
  | succ f ih =>
    intro c acc L h
    cases hc : came c with
    | none =>
      rw [reconstruct_eq_of_none hc] at h
      exact Or.inl ⟨rfl, by simpa using h.symm⟩
    | some p =>
      rw [reconstruct_eq_of_some_succ hc] at h
      rcases ih p (c :: acc) L h with ⟨hp, rfl⟩ | hcase
      · exact Or.inr ⟨p, c :: acc, rfl, hp, c, hc⟩
      · rcases hcase with ⟨hd, tl, hL, hhd, x, hx⟩
        exact Or.inr ⟨hd, tl, hL, hhd, x, hx⟩

theorem astarLoop_head {start goal : Cell} {grid : Grid} :
    ∀ (fuel : ℕ) (st : AState) (p : List Cell), cameOriginOK start st →
      astarLoop goal grid fuel st = some (some p) → p.head? = some start := by
  intro fuel
  induction fuel with
  | zero => intro st p _ h; cases h
  | succ f ih =>
    intro st p hOK h
    rw [astarLoop_succ] at h
    cases hpop : heapPop st.heap with
    | none => rw [hpop] at h; cases h
    | some pr =>
      obtain ⟨e, rest⟩ := pr
      simp only [hpop] at h
      by_cases hg : e.2 = goal
      · rw [if_pos hg] at h
        cases hrec : reconstruct st.came ((st.gscore e.2).getD 0 + 1) e.2 [e.2] with
        | none => simp [hrec] at h
        | some q =>
          simp only [hrec] at h
          have hqp : q = p := by simpa using h
          rw [hqp] at hrec
          rcases reconstruct_head_cases _ e.2 [] p hrec with ⟨hnone, rfl⟩ | ⟨hd, tl, rfl, hhd, x, hx⟩
          · rcases hOK.1 e (heapPop_some hpop).1 with h1 | h1
            · simp [h1]
            · rw [hnone] at h1; cases h1
          · rcases hOK.2 x hd hx with h1 | h1
            · simp [h1]
            · rw [hhd] at h1; cases h1
      · rw [if_neg hg] at h
        refine ih _ p ?_ h
        refine @expand_cameOriginOK start { st with heap := rest } goal grid e.2 ?_ ?_
        · exact hOK.1 e (heapPop_some hpop).1
        · exact ⟨fun x hx => hOK.1 x (heapPop_rest_subset hpop x hx), hOK.2⟩

/-- Any path returned by `astar` starts at the start cell. -/
theorem astar_head {start goal : Cell} {grid : Grid} {p : List Cell}
    (h : astar start goal grid = some p) : p.head? = some start := by
  simp only [astar] at h
  cases hres : astarLoop goal grid (astarFuel grid)
      { heap := [(manhattan start goal, start)]
        gscore := fun c => if c = start then some 0 else none
        fscore := fun c => if c = start then some (manhattan start goal) else none
        came := fun _ => none } with
  | none => rw [hres] at h; cases h
  | some o =>
    rw [hres] at h
    cases o with
    | none => cases h
    | some q =>
      have hqp : q = p := by simpa using h
      rw [hqp] at hres
      refine astarLoop_head _ _ p ?_ hres
      constructor
      · intro e he
        simp only [List.mem_singleton] at he
        subst he
        exact Or.inl rfl
      · intro c q h; cases h

/-! ### Route-planner lemmas -/

theorem planStep_eq_none (grid : Grid) (acc : Cell × List Cell) (t : Cell)
    (h : astar acc.1 t grid = none) : planStep grid acc t = acc := by
  simp only [planStep, h]

theorem planStep_eq_skip (grid : Grid) (acc : Cell × List Cell) (t : Cell)
    {p : List Cell} (h : astar acc.1 t grid = some p) (he : p.isEmpty = true) :
    planStep grid acc t = acc := by
  simp only [planStep, h, he, if_true]

theorem planStep_eq_some (grid : Grid) (acc : Cell × List Cell) (t : Cell)
    {p : List Cell} (h : astar acc.1 t grid = some p) (he : ¬ p.isEmpty = true) :
    planStep grid acc t = (t, acc.2 ++ p.tail) := by
  simp only [planStep, h]
  rw [if_neg he]

theorem planFold_acc (grid : Grid) :
    ∀ (ts : List Cell) (pos : Cell) (full : List Cell),
      ts.foldl (planStep grid) (pos, full) =
        ((ts.foldl (planStep grid) (pos, [])).1,
          full ++ (ts.foldl (planStep grid) (pos, [])).2) := by
  intro ts
  induction ts with
  | nil => intro pos full; simp
  | cons t ts ih =>
    intro pos full
    rw [List.foldl_cons, List.foldl_cons]
    cases hast : astar pos t grid with
    | none =>
      rw [planStep_eq_none grid (pos, full) t hast,
        planStep_eq_none grid (pos, []) t hast]
      exact ih pos full
    | some p =>
      by_cases hemp : p.isEmpty = true
      · rw [planStep_eq_skip grid (pos, full) t hast hemp,
          planStep_eq_skip grid (pos, []) t hast hemp]
        exact ih pos full
      · rw [planStep_eq_some grid (pos, full) t hast hemp,
          planStep_eq_some grid (pos, []) t hast hemp]
        rw [ih t (full ++ p.tail), ih t ([] ++ p.tail)]
        simp

theorem plan_full_path_nil (s : Cell) (grid : Grid) :
    plan_full_path s [] grid = [s] := rfl

theorem planPos_nil (s : Cell) (grid : Grid) : planPos s [] grid = s := rfl

theorem plan_full_path_cons_none {s t : Cell} {grid : Grid}
    (h : astar s t grid = none) (ts : List Cell) :
    plan_full_path s (t :: ts) grid = plan_full_path s ts grid := by
  unfold plan_full_path
  rw [List.foldl_cons, planStep_eq_none grid (s, [s]) t h]

theorem planPos_cons_none {s t : Cell} {grid : Grid}
    (h : astar s t grid = none) (ts : List Cell) :
    planPos s (t :: ts) grid = planPos s ts grid := by
  unfold planPos
  rw [List.foldl_cons, planStep_eq_none grid (s, [s]) t h]

theorem plan_full_path_cons_some {s t : Cell} {grid : Grid} {p : List Cell}
    (h : astar s t grid = some p) (hne : ¬ p.isEmpty = true) (ts : List Cell) :
    plan_full_path s (t :: ts) grid =
      [s] ++ p.tail ++ (plan_full_path t ts grid).tail := by
  unfold plan_full_path
  rw [List.foldl_cons, planStep_eq_some grid (s, [s]) t h hne]
  rw [planFold_acc grid ts t ([s] ++ p.tail), planFold_acc grid ts t [t]]
  simp

theorem planPos_cons_some {s t : Cell} {grid : Grid} {p : List Cell}
    (h : astar s t grid = some p) (hne : ¬ p.isEmpty = true) (ts : List Cell) :
    planPos s (t :: ts) grid = planPos t ts grid := by
  unfold planPos
  rw [List.foldl_cons, planStep_eq_some grid (s, [s]) t h hne]
  rw [planFold_acc grid ts t ([s] ++ p.tail), planFold_acc grid ts t [t]]

theorem plan_full_path_head (s : Cell) (ts : List Cell) (grid : Grid) :
    (plan_full_path s ts grid).head? = some s := by
  unfold plan_full_path
  rw [planFold_acc grid ts s [s]]
  rfl

theorem plan_full_path_ne_nil (s : Cell) (ts : List Cell) (grid : Grid) :
    plan_full_path s ts grid ≠ [] := by
  intro h
  have := plan_full_path_head s ts grid
  rw [h] at this
  cases this

/-- Concatenation equations: appending one more task to the task list. -/
theorem plan_full_path_concat_none {s cell : Cell} {grid : Grid} (a : List Cell)
    (h : astar (planPos s a grid) cell grid = none) :
    plan_full_path s (a ++ [cell]) grid = plan_full_path s a grid ∧
      planPos s (a ++ [cell]) grid = planPos s a grid := by
  unfold planPos at h
  unfold plan_full_path planPos
  rw [List.foldl_append, List.foldl_cons, List.foldl_nil,
    planStep_eq_none grid _ cell h]
  exact ⟨rfl, rfl⟩

theorem plan_full_path_concat_some {s cell : Cell} {grid : Grid} {p : List Cell}
    (a : List Cell) (h : astar (planPos s a grid) cell grid = some p)
    (hne : ¬ p.isEmpty = true) :
    plan_full_path s (a ++ [cell]) grid = plan_full_path s a grid ++ p.tail ∧
      planPos s (a ++ [cell]) grid = cell := by
  unfold planPos at h
  unfold plan_full_path planPos
  rw [List.foldl_append, List.foldl_cons, List.foldl_nil,
    planStep_eq_some grid _ cell h hne]
  exact ⟨rfl, rfl⟩

/-! ### Chains of successful legs -/

/-- Every leg of the task list, taken in order, has an `astar` path. -/
def chainOK (grid : Grid) : Cell → List Cell → Prop
  | _, [] => True
  | pos, t :: ts => (∃ p, astar pos t grid = some p) ∧ chainOK grid t ts

theorem chainOK_concat {grid : Grid} :
    ∀ (a : List Cell) (s cell : Cell) (p : List Cell),
      chainOK grid s a → astar (planPos s a grid) cell grid = some p →
      chainOK grid s (a ++ [cell]) := by
  intro a
  induction a with
  | nil =>
    intro s cell p _ hp
    rw [planPos_nil] at hp
    exact ⟨⟨p, hp⟩, trivial⟩
  | cons t a ih =>
    intro s cell p hchain hp
    obtain ⟨⟨q, hq⟩, hrest⟩ := hchain
    have hqe : ¬ q.isEmpty := by
      have := astar_some_ne_nil hq
      simpa [List.isEmpty_iff] using this
    rw [planPos_cons_some hq hqe] at hp
    exact ⟨⟨q, hq⟩, ih t cell p hrest hp⟩

/-- A list of targets whose legs all succeed, with no duplicates, appears in
order inside the stitched route. -/
theorem chainOK_sublist {grid : Grid} :
    ∀ (ts : List Cell) (s : Cell), chainOK grid s ts → ts.Nodup →
      ts.Sublist (plan_full_path s ts grid) := by
  intro ts
  induction ts with
  | nil => intro s _ _; simp
  | cons t ts ih =>
    intro s hchain hnd
    obtain ⟨⟨p, hp⟩, hrest⟩ := hchain
    have hpe : ¬ p.isEmpty := by
      have := astar_some_ne_nil hp
      simpa [List.isEmpty_iff] using this
    rw [plan_full_path_cons_some hp hpe ts]
    obtain ⟨pre, rfl⟩ := astar_some_concat hp
    have hplan : plan_full_path t ts grid = t :: (plan_full_path t ts grid).tail := by
      have hh := plan_full_path_head t ts grid
      cases hq : plan_full_path t ts grid with
      | nil => exact absurd hq (plan_full_path_ne_nil t ts grid)
      | cons x xs =>
        rw [hq] at hh
        simp only [List.head?_cons, Option.some.injEq] at hh
        rw [hh]
        rfl
    have hsub : ts.Sublist ((plan_full_path t ts grid).tail) := by
      have h1 : ts.Sublist (t :: (plan_full_path t ts grid).tail) := by
        rw [← hplan]; exact ih t hrest (List.nodup_cons.1 hnd).2
      rcases List.sublist_cons_iff.1 h1 with h2 | ⟨r, hr, h2⟩
      · exact h2
      · exfalso
        have : t ∈ ts := by rw [hr]; exact List.mem_cons_self _ _
        exact (List.nodup_cons.1 hnd).1 this
    by_cases hpre : pre = []
    · subst hpre
      have hts : t = s := by
        have := astar_head hp
        simpa using this
      subst hts
      simpa using List.Sublist.cons₂ t hsub
    · have htail : (pre ++ [t]).tail = pre.tail ++ [t] := by
        cases pre with
        | nil => exact absurd rfl hpre
        | cons x xs => simp
      rw [htail]
      have h1 : (t :: ts).Sublist (([t]) ++ (plan_full_path t ts grid).tail) :=
        List.Sublist.append (List.Sublist.refl [t]) hsub
      have h2 : (([t]) ++ (plan_full_path t ts grid).tail).Sublist
          ((pre.tail ++ [t]) ++ (plan_full_path t ts grid).tail) :=
        List.Sublist.append (List.sublist_append_right pre.tail [t]) (List.Sublist.refl _)
      have h3 := h1.trans h2
      refine h3.trans ?_
      simp

/-! ### Allocator invariants -/

theorem perm_shuffle {a0 a1 rem rem' : List Cell} {c : Cell}
    (h : rem.Perm (c :: rem')) :
    ((a0 ++ [c]) ++ a1 ++ rem').Perm (a0 ++ a1 ++ rem) := by
  have h1 : (c :: (a1 ++ rem')).Perm (a1 ++ rem) :=
    List.perm_middle.symm.trans (h.append_left a1).symm
  have h2 : (a0 ++ (c :: (a1 ++ rem'))).Perm (a0 ++ (a1 ++ rem)) :=
    h1.append_left a0
  have e1 : (a0 ++ [c]) ++ a1 ++ rem' = a0 ++ (c :: (a1 ++ rem')) := by simp
  have e2 : a0 ++ a1 ++ rem = a0 ++ (a1 ++ rem) := by simp
  rw [e1, e2]
  exact h2

/-- The allocator moves cells between lists but never invents or loses one:
the two assignment lists plus the remaining set stay a permutation of the
original target list. -/
theorem assignRun_perm (s0 s1 : Cell) (dirty : List Cell) (grid : Grid) :
    ((assignRun s0 s1 dirty grid).a0 ++ (assignRun s0 s1 dirty grid).a1 ++
      (assignRun s0 s1 dirty grid).remaining).Perm dirty := by
  refine assignLoop_invariant grid
    (fun st => (st.a0 ++ st.a1 ++ st.remaining).Perm dirty) ?_ _ _ (by simp)
  intro st r _hrem hscan hP
  have hmem : r.1 ∈ st.remaining := (scanBest_some_spec hscan).1
  have hperm : st.remaining.Perm (r.1 :: st.remaining.erase r.1) :=
    perm_cons_erase_beq hmem
  unfold commitBest
  by_cases hag : r.2.1 = 0
  · rw [if_pos hag]
    exact (perm_shuffle hperm).trans hP
  · rw [if_neg hag]
    have h1 : ((st.a1 ++ [r.1]) ++ st.remaining.erase r.1).Perm
        (st.a1 ++ st.remaining) := by
      have := @perm_shuffle st.a1 [] st.remaining (st.remaining.erase r.1) r.1 hperm
      simpa using this
    have h2 : (st.a0 ++ ((st.a1 ++ [r.1]) ++ st.remaining.erase r.1)).Perm
        (st.a0 ++ (st.a1 ++ st.remaining)) := h1.append_left st.a0
    have e1 : st.a0 ++ (st.a1 ++ [r.1]) ++ st.remaining.erase r.1 =
        st.a0 ++ ((st.a1 ++ [r.1]) ++ st.remaining.erase r.1) := by simp
    have e2 : st.a0 ++ st.a1 ++ st.remaining =
        st.a0 ++ (st.a1 ++ st.remaining) := by simp
    rw [e1]
    refine h2.trans ?_
    rw [← e2]
    exact hP

/-- At loop exit either every target was assigned or the last scan found no
pair with a finite score. -/
theorem assignRun_final (s0 s1 : Cell) (dirty : List Cell) (grid : Grid) :
    (assignRun s0 s1 dirty grid).remaining = [] ∨
      scanBest grid (assignRun s0 s1 dirty grid) = none := by
  exact assignLoop_final grid (dirty.length + 1) _ (by simp)

/-- Joint invariant for claims C7/C10: each agent's assignment list is a
chain of successful legs, the estimated position is the planner's final
position, and the estimated length is one less than the planned route's
cell count. -/
def agentInv (grid : Grid) (s0 s1 : Cell) (st : TAState) : Prop :=
  chainOK grid s0 st.a0 ∧ chainOK grid s1 st.a1 ∧
  planPos s0 st.a0 grid = st.p0 ∧ planPos s1 st.a1 grid = st.p1 ∧
  (plan_full_path s0 st.a0 grid).length = st.l0 + 1 ∧
  (plan_full_path s1 st.a1 grid).length = st.l1 + 1

theorem assignRun_agentInv (s0 s1 : Cell) (dirty : List Cell) (grid : Grid) :
    agentInv grid s0 s1 (assignRun s0 s1 dirty grid) := by
  refine assignLoop_invariant grid (agentInv grid s0 s1) ?_ _ _ ?_
  · intro st r _hrem hscan hP
    obtain ⟨hc0, hc1, hp0, hp1, hl0, hl1⟩ := hP
    rcases (scanBest_some_spec hscan).2 with ⟨hag, hast, hsc⟩ | ⟨hag, hast, hsc⟩
    · unfold commitBest
      rw [if_pos hag]
      have hastp : astar (planPos s0 st.a0 grid) r.1 grid = some r.2.2.1 := by
        rw [hp0]; exact hast
      have hne : ¬ r.2.2.1.isEmpty = true := by
        have := astar_some_ne_nil hastp
        simpa [List.isEmpty_iff] using this
      obtain ⟨hplan, hpos⟩ := plan_full_path_concat_some st.a0 hastp hne
      have hlenp : 1 ≤ r.2.2.1.length := by
        cases hq : r.2.2.1 with
        | nil => rw [hq] at hne; simp at hne
        | cons x xs => simp [hq]
      refine ⟨chainOK_concat st.a0 s0 r.1 r.2.2.1 hc0 hastp, hc1, ?_, hp1, ?_, hl1⟩
      · exact hpos
      · rw [hplan]
        simp only [List.length_append, List.length_tail]
        omega
    · unfold commitBest
      have hag0 : ¬ r.2.1 = 0 := by omega
      rw [if_neg hag0]
      have hastp : astar (planPos s1 st.a1 grid) r.1 grid = some r.2.2.1 := by
        rw [hp1]; exact hast
      have hne : ¬ r.2.2.1.isEmpty = true := by
        have := astar_some_ne_nil hastp
        simpa [List.isEmpty_iff] using this
      obtain ⟨hplan, hpos⟩ := plan_full_path_concat_some st.a1 hastp hne
      have hlenp : 1 ≤ r.2.2.1.length := by
        cases hq : r.2.2.1 with
        | nil => rw [hq] at hne; simp at hne
        | cons x xs => simp [hq]
      refine ⟨hc0, chainOK_concat st.a1 s1 r.1 r.2.2.1 hc1 hastp, hp0, ?_, hl0, ?_⟩
      · exact hpos
      · rw [hplan]
        simp only [List.length_append, List.length_tail]
        omega
  · exact ⟨trivial, trivial, rfl, rfl, rfl, rfl⟩

/-! ### Simulation lemmas -/

theorem simLoop_succ (dirty : Finset Cell) (path0 path1 : List Cell) (n : ℕ)
    (st : SimState) :
    simLoop dirty path0 path1 (n + 1) st =
      if (tick dirty path0 path1 st).2 then
        ((simLoop dirty path0 path1 n (tick dirty path0 path1 st).1).1,
          (tick dirty path0 path1 st).2 ::
            (simLoop dirty path0 path1 n (tick dirty path0 path1 st).1).2)
      else ((tick dirty path0 path1 st).1, [(tick dirty path0 path1 st).2]) := rfl

/-- Shape of the executed-tick flags: at most `n` of them, every tick before
the last one moved some agent, and when the loop stopped before exhausting
its budget the final executed tick moved nobody. -/
theorem simLoop_flags (dirty : Finset Cell) (path0 path1 : List Cell) :
    ∀ (n : ℕ) (st : SimState),
      (simLoop dirty path0 path1 n st).2.length ≤ n ∧
      (0 < n → (simLoop dirty path0 path1 n st).2 ≠ []) ∧
      (∀ i, i + 1 < (simLoop dirty path0 path1 n st).2.length →
        (simLoop dirty path0 path1 n st).2.getD i false = true) ∧
      ((simLoop dirty path0 path1 n st).2.length < n →
        (simLoop dirty path0 path1 n st).2.getLast? = some false) := by
  intro n
  induction n with
  | zero =>
    intro st
    refine ⟨by simp [simLoop], by intro h; exact absurd h (lt_irrefl 0), ?_,
      by simp [simLoop]⟩
    intro i hi
    simp [simLoop] at hi
  | succ m ih =>
    intro st
    rw [simLoop_succ]
    cases hmv : (tick dirty path0 path1 st).2 with
    | false =>
      rw [if_neg (by simp [hmv])]
      refine ⟨by simp, by simp, ?_, by simp [hmv]⟩
      intro i hi
      simp at hi
    | true =>
      rw [if_pos (by simp [hmv])]
      obtain ⟨ih1, ih2, ih3, ih4⟩ := ih (tick dirty path0 path1 st).1
      refine ⟨by simpa using ih1, by simp, ?_, ?_⟩
      · intro i hi
        cases i with
        | zero => simp [hmv]
        | succ j =>
          simp only [List.getD_cons_succ]
          exact ih3 j (by simpa using hi)
      · intro hlt
        have hm : 0 < m := by simp at hlt; omega
        have hlen : (simLoop dirty path0 path1 m (tick dirty path0 path1 st).1).2.length < m := by
          simp at hlt; omega
        have hne := ih2 hm
        cases hq : (simLoop dirty path0 path1 m (tick dirty path0 path1 st).1).2 with
        | nil => exact absurd hq hne
        | cons x xs =>
          have := ih4 hlen
          rw [hq] at this
          simpa using this

theorem tick_cleaned (dirty : Finset Cell) (path0 path1 : List Cell) (st : SimState) :
    (tick dirty path0 path1 st).1.cleaned =
      cleanStep dirty (agentStep path1 st.idx1 st.pos1 st.steps1).2.1
        (cleanStep dirty (agentStep path0 st.idx0 st.pos0 st.steps0).2.1 st.cleaned) := rfl

theorem cleanStep_subset {dirty cleaned : Finset Cell} {pos : Cell}
    (h : cleaned ⊆ dirty) : cleanStep dirty pos cleaned ⊆ dirty := by
  unfold cleanStep
  split_ifs with hp
  · exact Finset.insert_subset_iff.2 ⟨hp, h⟩
  · exact h

theorem cleanStep_mono (dirty : Finset Cell) (pos : Cell) (cleaned : Finset Cell) :
    cleaned ⊆ cleanStep dirty pos cleaned := by
  unfold cleanStep
  split_ifs
  · exact Finset.subset_insert _ _
  · exact Finset.Subset.refl _

theorem cleanStep_idem {dirty cleaned : Finset Cell} {pos : Cell}
    (h : pos ∈ cleaned) : cleanStep dirty pos cleaned = cleaned := by
  unfold cleanStep
  split_ifs
  · exact Finset.insert_eq_self.2 h
  · rfl

theorem tick_cleaned_subset {dirty : Finset Cell} {path0 path1 : List Cell}
    {st : SimState} (h : st.cleaned ⊆ dirty) :
    (tick dirty path0 path1 st).1.cleaned ⊆ dirty := by
  rw [tick_cleaned]
  exact cleanStep_subset (cleanStep_subset h)

theorem tick_cleaned_mono (dirty : Finset Cell) (path0 path1 : List Cell)
    (st : SimState) : st.cleaned ⊆ (tick dirty path0 path1 st).1.cleaned := by
  rw [tick_cleaned]
  exact (cleanStep_mono dirty _ st.cleaned).trans (cleanStep_mono dirty _ _)

theorem simLoop_cleaned_subset {dirty : Finset Cell} {path0 path1 : List Cell} :
    ∀ (n : ℕ) (st : SimState), st.cleaned ⊆ dirty →
      (simLoop dirty path0 path1 n st).1.cleaned ⊆ dirty := by
  intro n
  induction n with
  | zero => intro st h; exact h
  | succ m ih =>
    intro st h
    rw [simLoop_succ]
    split_ifs
    · exact ih _ (tick_cleaned_subset h)
    · exact tick_cleaned_subset h

theorem simLoop_cleaned_mono {dirty : Finset Cell} {path0 path1 : List Cell} :
    ∀ (n : ℕ) (st : SimState),
      st.cleaned ⊆ (simLoop dirty path0 path1 n st).1.cleaned := by
  intro n
  induction n with
  | zero => intro st; exact Finset.Subset.refl _
  | succ m ih =>
    intro st
    rw [simLoop_succ]
    split_ifs
    · exact (tick_cleaned_mono dirty path0 path1 st).trans (ih _)
    · exact tick_cleaned_mono dirty path0 path1 st

/-! ### Claim theorems -/

/-- Claim C2 (amended): whenever `astar` returns a path, every cell of that
path except the first passed the in-bounds-and-free admission test
(`cellFree`).  The first cell is the supplied start, which the source pushes
onto the heap unvetted, so a returned path can begin at an obstacle or
out-of-bounds cell — see the counterexample. -/
theorem C2_path_tail_free {start goal : Cell} {grid : Grid} {p : List Cell}
    (h : astar start goal grid = some p) :
    ∀ c ∈ p.tail, cellFree grid c = true :=
  astar_tail_free h

theorem C2_path_tail_free_witness :
    cellFree [[0, 0], [0, 0]] ((0, 1) : Cell) = true ∧
      cellFree [[0, 0], [0, 0]] ((1, 1) : Cell) = true :=
  ⟨C2_path_tail_free
    (show astar (0, 0) (1, 1) [[0, 0], [0, 0]] = some [(0, 0), (0, 1), (1, 1)]
      by decide) (0, 1) (by decide),
   C2_path_tail_free
    (show astar (0, 0) (1, 1) [[0, 0], [0, 0]] = some [(0, 0), (0, 1), (1, 1)]
      by decide) (1, 1) (by decide)⟩

/-- Claim C2 as stated is false: with `start = goal` an obstacle cell,
`astar` immediately pops the start and returns the one-cell path `[start]`,
which consists of an obstacle cell. -/
theorem C2_counterexample :
    astar (0, 0) (0, 0) [[1]] = some [(0, 0)] ∧
      cellFree [[1]] (0, 0) = false := by decide

/-- Claim C3: the two assignment lists plus the targets left unassigned are
exactly the original target set (as a multiset, hence with no duplication
and no target assigned to two agents or twice to one), and when the loop
terminated early every leftover target has no `astar` path from either
agent's final estimated position. -/
theorem C3_assign_partition (s0 s1 : Cell) (dirty : List Cell) (grid : Grid)
    (hnd : dirty.Nodup) :
    ((assign_tasks s0 s1 dirty grid).1 ++ (assign_tasks s0 s1 dirty grid).2 ++
        (assignRun s0 s1 dirty grid).remaining).Perm dirty ∧
    ((assign_tasks s0 s1 dirty grid).1 ++ (assign_tasks s0 s1 dirty grid).2 ++
        (assignRun s0 s1 dirty grid).remaining).Nodup ∧
    ((assignRun s0 s1 dirty grid).remaining ≠ [] →
      ∀ c ∈ (assignRun s0 s1 dirty grid).remaining,
        astar (assignRun s0 s1 dirty grid).p0 c grid = none ∧
        astar (assignRun s0 s1 dirty grid).p1 c grid = none) := by
  refine ⟨assignRun_perm s0 s1 dirty grid, ?_, ?_⟩
  · exact ((assignRun_perm s0 s1 dirty grid).nodup_iff).2 hnd
  · intro hne c hc
    rcases assignRun_final s0 s1 dirty grid with h | h
    · exact absurd h hne
    · exact scanBest_none_spec h c hc

theorem C3_assign_partition_witness :
    (((assign_tasks (0, 0) (0, 2) [(0, 1)] [[0, 0, 0]]).1 ++
        (assign_tasks (0, 0) (0, 2) [(0, 1)] [[0, 0, 0]]).2 ++
        (assignRun (0, 0) (0, 2) [(0, 1)] [[0, 0, 0]]).remaining).Perm [(0, 1)]) ∧
    (((assign_tasks (0, 0) (0, 2) [(0, 1)] [[0, 0, 0]]).1 ++
        (assign_tasks (0, 0) (0, 2) [(0, 1)] [[0, 0, 0]]).2 ++
        (assignRun (0, 0) (0, 2) [(0, 1)] [[0, 0, 0]]).remaining).Nodup) ∧
    ((assignRun (0, 0) (0, 2) [(0, 1)] [[0, 0, 0]]).remaining ≠ [] →
      ∀ c ∈ (assignRun (0, 0) (0, 2) [(0, 1)] [[0, 0, 0]]).remaining,
        astar (assignRun (0, 0) (0, 2) [(0, 1)] [[0, 0, 0]]).p0 c [[0, 0, 0]] = none ∧
        astar (assignRun (0, 0) (0, 2) [(0, 1)] [[0, 0, 0]]).p1 c [[0, 0, 0]] = none) :=
  C3_assign_partition (0, 0) (0, 2) [(0, 1)] [[0, 0, 0]] (by decide)

/-- Claim C4: under a score tie for the same single target the allocator
commits the target to agent `0` (the strict `<` comparison together with the
`[0, 1]` iteration order pins the lower agent id), so rerunning on the same
inputs reproduces the same assignment. -/
theorem C4_tie_break {grid : Grid} {s0 s1 t : Cell} {q0 q1 : List Cell}
    (h0 : astar s0 t grid = some q0) (h1 : astar s1 t grid = some q1)
    (heq : q0.length = q1.length) :
    assign_tasks s0 s1 [t] grid = ([t], []) := by
  have hscan : scanBest grid
      { a0 := [], a1 := [], p0 := s0, p1 := s1, l0 := 0, l1 := 0,
        remaining := [t] } = some (t, 0, q0, 0 + q0.length - 1) := by
    show scanStep grid s0 s1 0 0 none t = some (t, 0, q0, 0 + q0.length - 1)
    unfold scanStep tryPair
    simp only [h0, h1]
    rw [if_neg (by omega)]
  have hrun : assignRun s0 s1 [t] grid =
      commitBest
        { a0 := [], a1 := [], p0 := s0, p1 := s1, l0 := 0, l1 := 0,
          remaining := [t] } t 0 (0 + q0.length - 1) := by
    unfold assignRun
    rw [show ([t] : List Cell).length + 1 = 1 + 1 from rfl, assignLoop_succ]
    rw [if_neg (by simp)]
    rw [hscan]
    show assignLoop grid 1 _ = _
    rw [assignLoop_succ]
    rw [if_pos (by simp [commitBest, List.erase_cons_head])]
  unfold assign_tasks
  rw [hrun]
  simp [commitBest]

theorem C4_tie_break_witness :
    assign_tasks (0, 0) (0, 2) [(0, 1)] [[0, 0, 0]] = ([(0, 1)], []) :=
  @C4_tie_break [[0, 0, 0]] (0, 0) (0, 2) (0, 1) [(0, 0), (0, 1)]
    [(0, 2), (0, 1)] (by decide) (by decide) (by decide)

/-- Claim C5 (amended): the efficiency metric is the true division
`len(cleaned) / total_steps`, and when the total step count is `0` the
division is unguarded — the program raises `ZeroDivisionError` (modelled as
`none`) instead of defining the metric as `0`. -/
theorem C5_efficiency_division (st : SimState) :
    (total_steps st ≠ 0 →
      efficiency st = some ((st.cleaned.card : ℚ) / (total_steps st : ℚ))) ∧
    (total_steps st = 0 → efficiency st = none) :=
  ⟨fun h => if_neg h, fun h => if_pos h⟩

theorem C5_efficiency_division_witness :
    efficiency (simRun {((0 : ℤ), (3 : ℤ))}
        (plan_full_path (0, 0) [(0, 3)] [[0, 0, 0, 0, 0]]) [(0, 0)]
        (0, 0) (0, 0)).1 =
      some (((simRun {((0 : ℤ), (3 : ℤ))}
        (plan_full_path (0, 0) [(0, 3)] [[0, 0, 0, 0, 0]]) [(0, 0)]
        (0, 0) (0, 0)).1.cleaned.card : ℚ) /
        ((total_steps (simRun {((0 : ℤ), (3 : ℤ))}
          (plan_full_path (0, 0) [(0, 3)] [[0, 0, 0, 0, 0]]) [(0, 0)]
          (0, 0) (0, 0)).1 : ℕ) : ℚ)) :=
  (C5_efficiency_division _).1 (by decide)

/-- Claim C5 as stated is false: on a run with no movement (both routes are
a single cell), `total_steps` is `0` and the efficiency computation is a
division-by-zero error (`none`), not `0`. -/
theorem C5_counterexample :
    efficiency (simRun ∅ (plan_full_path (0, 0) [] [[0, 0]])
        (plan_full_path (0, 1) [] [[0, 0]]) (0, 0) (0, 1)).1 = none := by decide

/-- Claim C6 (amended): neither `assign_tasks` nor `plan_full_path`
validates its inputs.  A target cell that fails the `cellFree` test (an
obstacle or out of bounds) and differs from both starts is simply
unreachable for `astar`, so the allocator leaves it permanently unassigned
and the route builder skips it; both functions return normally and no error
is raised. -/
theorem C6_invalid_target_silent {grid : Grid} {s0 s1 t : Cell}
    (hfree : cellFree grid t = false) (h0 : t ≠ s0) (h1 : t ≠ s1) :
    assign_tasks s0 s1 [t] grid = ([], []) ∧
    (assignRun s0 s1 [t] grid).remaining = [t] ∧
    plan_full_path s0 [t] grid = [s0] := by
  have hast0 : astar s0 t grid = none := astar_goal_blocked hfree h0
  have hast1 : astar s1 t grid = none := astar_goal_blocked hfree h1
  have hscan : scanBest grid
      { a0 := [], a1 := [], p0 := s0, p1 := s1, l0 := 0, l1 := 0,
        remaining := [t] } = none := by
    show scanStep grid s0 s1 0 0 none t = none
    exact scanStep_eq_none_iff.2 ⟨hast0, hast1, rfl⟩
  have hrun : assignRun s0 s1 [t] grid =
      { a0 := [], a1 := [], p0 := s0, p1 := s1, l0 := 0, l1 := 0,
        remaining := [t] } := by
    unfold assignRun
    rw [show ([t] : List Cell).length + 1 = 1 + 1 from rfl, assignLoop_succ]
    rw [if_neg (by simp)]
    rw [hscan]
  refine ⟨?_, ?_, ?_⟩
  · unfold assign_tasks
    rw [hrun]
  · rw [hrun]
  · rw [plan_full_path_cons_none hast0]
    rfl

theorem C6_invalid_target_silent_witness :
    assign_tasks (0, 0) (0, 2) [(0, 1)] [[0, 1, 0]] = ([], []) ∧
    (assignRun (0, 0) (0, 2) [(0, 1)] [[0, 1, 0]]).remaining = [(0, 1)] ∧
    plan_full_path (0, 0) [(0, 1)] [[0, 1, 0]] = [(0, 0)] :=
  C6_invalid_target_silent (by decide) (by decide) (by decide)

/-- Claim C6 as stated is false: with the single target `(0,1)` being an
obstacle, both functions return ordinary values — the allocator hands back
empty assignments and the route builder the bare start — rather than
failing fast with an explicit error. -/
theorem C6_counterexample :
    cellFree [[0, 1, 0]] (0, 1) = false ∧
    assign_tasks (0, 0) (0, 2) [(0, 1)] [[0, 1, 0]] = ([], []) ∧
    plan_full_path (0, 2) [(0, 1)] [[0, 1, 0]] = [(0, 2)] := by decide

/-- Claim C7: the stitched route begins with the start cell; each target
with a path appends that path minus its first cell while a target without a
path is skipped with no error; and for an assignment produced by
`assign_tasks` on the same grid, each agent's route contains its assigned
targets in the same relative order. -/
theorem C7_route_builder :
    (∀ (s : Cell) (ts : List Cell) (grid : Grid),
      (plan_full_path s ts grid).head? = some s) ∧
    (∀ (s t : Cell) (ts : List Cell) (grid : Grid), astar s t grid = none →
      plan_full_path s (t :: ts) grid = plan_full_path s ts grid) ∧
    (∀ (s t : Cell) (ts : List Cell) (grid : Grid) (p : List Cell),
      astar s t grid = some p →
      plan_full_path s (t :: ts) grid =
        [s] ++ p.tail ++ (plan_full_path t ts grid).tail) ∧
    (∀ (s0 s1 : Cell) (dirty : List Cell) (grid : Grid), dirty.Nodup →
      (assign_tasks s0 s1 dirty grid).1.Sublist
        (plan_full_path s0 (assign_tasks s0 s1 dirty grid).1 grid) ∧
      (assign_tasks s0 s1 dirty grid).2.Sublist
        (plan_full_path s1 (assign_tasks s0 s1 dirty grid).2 grid)) := by
  refine ⟨plan_full_path_head, ?_, ?_, ?_⟩
  · intro s t ts grid h
    exact plan_full_path_cons_none h ts
  · intro s t ts grid p h
    have hne : ¬ p.isEmpty = true := by
      have := astar_some_ne_nil h
      simpa [List.isEmpty_iff] using this
    exact plan_full_path_cons_some h hne ts
  · intro s0 s1 dirty grid hnd
    obtain ⟨hc0, hc1, _, _, _, _⟩ := assignRun_agentInv s0 s1 dirty grid
    have hall : ((assignRun s0 s1 dirty grid).a0 ++ (assignRun s0 s1 dirty grid).a1 ++
        (assignRun s0 s1 dirty grid).remaining).Nodup :=
      ((assignRun_perm s0 s1 dirty grid).nodup_iff).2 hnd
    have hnd0 : (assignRun s0 s1 dirty grid).a0.Nodup :=
      hall.sublist (by simp [List.sublist_append_left])
    have hnd1 : (assignRun s0 s1 dirty grid).a1.Nodup := by
      refine hall.sublist ?_
      exact (List.sublist_append_right _ _).trans
        (List.sublist_append_left _ _)
    exact ⟨chainOK_sublist _ s0 hc0 hnd0, chainOK_sublist _ s1 hc1 hnd1⟩

theorem C7_route_builder_witness :
    plan_full_path (0, 0) ((0, 1) :: [(0, 2)]) [[0, 0, 0]] =
      [(0, 0)] ++ ([(0, 0), (0, 1)] : List Cell).tail ++
        (plan_full_path (0, 1) [(0, 2)] [[0, 0, 0]]).tail :=
  C7_route_builder.2.2.1 (0, 0) (0, 1) [(0, 2)] [[0, 0, 0]]
    [(0, 0), (0, 1)] (by decide)

/-- Claim C8: the simulation executes at most
`max(len(route0), len(route1)) + 200` ticks, every executed tick before the
last one advanced some agent, and if it stopped before the cap, the final
executed tick advanced nobody (the loop breaks at the first no-move tick). -/
theorem C8_sim_termination (dirty : Finset Cell) (path0 path1 : List Cell)
    (st : SimState) :
    (simLoop dirty path0 path1 (max_steps path0 path1) st).2.length ≤
        max_steps path0 path1 ∧
    (∀ i, i + 1 < (simLoop dirty path0 path1 (max_steps path0 path1) st).2.length →
      (simLoop dirty path0 path1 (max_steps path0 path1) st).2.getD i false = true) ∧
    ((simLoop dirty path0 path1 (max_steps path0 path1) st).2.length <
        max_steps path0 path1 →
      (simLoop dirty path0 path1 (max_steps path0 path1) st).2.getLast? =
        some false) := by
  obtain ⟨h1, _, h3, h4⟩ := simLoop_flags dirty path0 path1 (max_steps path0 path1) st
  exact ⟨h1, h3, h4⟩

theorem C8_sim_termination_witness :
    (simLoop {((0 : ℤ), (1 : ℤ))} [(0, 0), (0, 1)] [(0, 0)]
        (max_steps [(0, 0), (0, 1)] [(0, 0)]) (simInit (0, 0) (0, 0))).2.getLast? =
      some false :=
  (C8_sim_termination {((0 : ℤ), (1 : ℤ))} [(0, 0), (0, 1)] [(0, 0)]
    (simInit (0, 0) (0, 0))).2.2 (by decide)

/-- Claim C9: each tick only ever inserts cells of the dirty set, so the
cleaned set stays a subset of the original target set and grows
monotonically tick over tick (over the whole loop as well); re-adding an
already-cleaned cell leaves the set unchanged. -/
theorem C9_cleaned_invariants (dirty : Finset Cell) (path0 path1 : List Cell) :
    (∀ st : SimState, st.cleaned ⊆ dirty →
      (tick dirty path0 path1 st).1.cleaned ⊆ dirty) ∧
    (∀ st : SimState, st.cleaned ⊆ (tick dirty path0 path1 st).1.cleaned) ∧
    (∀ (n : ℕ) (st : SimState), st.cleaned ⊆ dirty →
      (simLoop dirty path0 path1 n st).1.cleaned ⊆ dirty) ∧
    (∀ (n : ℕ) (st : SimState),
      st.cleaned ⊆ (simLoop dirty path0 path1 n st).1.cleaned) ∧
    (∀ (s0 s1 : Cell), (simRun dirty path0 path1 s0 s1).1.cleaned ⊆ dirty) ∧
    (∀ (pos : Cell) (cleaned : Finset Cell), pos ∈ cleaned →
      cleanStep dirty pos cleaned = cleaned) := by
  refine ⟨fun st h => tick_cleaned_subset h, tick_cleaned_mono dirty path0 path1,
    fun n st h => simLoop_cleaned_subset n st h, simLoop_cleaned_mono,
    ?_, fun pos cleaned h => cleanStep_idem h⟩
  intro s0 s1
  exact simLoop_cleaned_subset _ _ (by simp [simInit])

theorem C9_cleaned_invariants_witness :
    (tick {((0 : ℤ), (1 : ℤ))} [(0, 0), (0, 1)] [(0, 0)]
        (simInit (0, 0) (0, 0))).1.cleaned ⊆ {((0 : ℤ), (1 : ℤ))} :=
  (C9_cleaned_invariants {((0 : ℤ), (1 : ℤ))} [(0, 0), (0, 1)] [(0, 0)]).1
    (simInit (0, 0) (0, 0)) (by decide)

/-- Claim C10: after `assign_tasks` finishes, each agent's estimated
cumulative length `est_len` equals the number of movement steps of the
route `plan_full_path` builds from that agent's start through its assigned
targets, i.e. the route's cell count minus one. -/
theorem C10_est_len_route (s0 s1 : Cell) (dirty : List Cell) (grid : Grid) :
    (assignRun s0 s1 dirty grid).l0 =
      (plan_full_path s0 (assign_tasks s0 s1 dirty grid).1 grid).length - 1 ∧
    (assignRun s0 s1 dirty grid).l1 =
      (plan_full_path s1 (assign_tasks s0 s1 dirty grid).2 grid).length - 1 := by
  obtain ⟨_, _, _, _, hl0, hl1⟩ := assignRun_agentInv s0 s1 dirty grid
  constructor
  · rw [show (assign_tasks s0 s1 dirty grid).1 = (assignRun s0 s1 dirty grid).a0
      from rfl, hl0]
    omega
  · rw [show (assign_tasks s0 s1 dirty grid).2 = (assignRun s0 s1 dirty grid).a1
      from rfl, hl1]
    omega

/-! ### Claim C1 infrastructure: Manhattan geometry and a canonical geodesic -/

theorem manhattan_self (a : Cell) : manhattan a a = 0 := by
  unfold manhattan
  omega

theorem manhattan_comm (a b : Cell) : manhattan a b = manhattan b a := by
  unfold manhattan
  omega

theorem manhattan_eq_zero {a b : Cell} (h : manhattan a b = 0) : a = b := by
  unfold manhattan at h
  have h1 : a.1 = b.1 := by omega
  have h2 : a.2 = b.2 := by omega
  exact Prod.ext h1 h2

theorem manhattan_triangle (a b c : Cell) :
    manhattan a c ≤ manhattan a b + manhattan b c := by
  unfold manhattan
  omega

theorem manhattan_shift (c d : Cell) (hd : d ∈ nbrDirs) :
    manhattan c (shift c d) = 1 := by
  fin_cases hd <;> (unfold manhattan shift; simp)

theorem shift_ne_self (c : Cell) {d : Cell} (hd : d ∈ nbrDirs) :
    shift c d ≠ c := by
  fin_cases hd <;> (unfold shift; intro h; rw [Prod.ext_iff] at h; simp at h)

theorem shift_inj {c d₁ d₂ : Cell} (h : shift c d₁ = shift c d₂) : d₁ = d₂ := by
  unfold shift at h
  rw [Prod.ext_iff] at h ⊢
  constructor <;> omega

/-- One coordinate step toward a target value. -/
def stepToward (a b : ℤ) : ℤ := if a < b then a + 1 else if b < a then a - 1 else a

/-- The canonical monotone geodesic from `s` to `g`: fix the row first, then
the column.  `geo s g i` is its `i`-th cell. -/
def geo (s g : Cell) : ℕ → Cell
  | 0 => s
  | i + 1 =>
    if (geo s g i).1 ≠ g.1 then (stepToward (geo s g i).1 g.1, (geo s g i).2)
    else ((geo s g i).1, stepToward (geo s g i).2 g.2)

theorem geo_spec (s g : Cell) :
    ∀ i, i ≤ manhattan s g →
      (min s.1 g.1 ≤ (geo s g i).1 ∧ (geo s g i).1 ≤ max s.1 g.1) ∧
      (min s.2 g.2 ≤ (geo s g i).2 ∧ (geo s g i).2 ≤ max s.2 g.2) ∧
      manhattan (geo s g i) g + i = manhattan s g ∧
      manhattan s (geo s g i) = i := by
  intro i
  induction i with
  | zero =>
    intro _
    refine ⟨⟨min_le_left _ _, le_max_left _ _⟩, ⟨min_le_left _ _, le_max_left _ _⟩,
      by simp [geo], by simp [geo, manhattan_self]⟩
  | succ n ih =>
    intro hle
    obtain ⟨⟨hr1, hr2⟩, ⟨hc1, hc2⟩, hto, hfrom⟩ := ih (by omega)
    have hpos : 1 ≤ manhattan (geo s g n) g := by omega
    show _ ∧ _ ∧ _ ∧ _
    rw [geo]
    by_cases hrow : (geo s g n).1 ≠ g.1
    · rw [if_pos hrow]
      have hstep : manhattan (stepToward (geo s g n).1 g.1, (geo s g n).2) g + 1 =
          manhattan (geo s g n) g := by
        unfold manhattan stepToward
        simp only []
        by_cases h1 : (geo s g n).1 < g.1
        · rw [if_pos h1]; omega
        · rw [if_neg h1, if_pos (by omega)]; omega
      have hb : min s.1 g.1 ≤ stepToward (geo s g n).1 g.1 ∧
          stepToward (geo s g n).1 g.1 ≤ max s.1 g.1 := by
        unfold stepToward
        by_cases h1 : (geo s g n).1 < g.1
        · rw [if_pos h1]; omega
        · rw [if_neg h1, if_pos (by omega)]; omega
      have hfrom' : manhattan s (stepToward (geo s g n).1 g.1, (geo s g n).2) = n + 1 := by
        have hub : manhattan s (stepToward (geo s g n).1 g.1, (geo s g n).2) ≤ n + 1 := by
          refine le_trans (manhattan_triangle s (geo s g n) _) ?_
          have : manhattan (geo s g n) (stepToward (geo s g n).1 g.1, (geo s g n).2) ≤ 1 := by
            unfold manhattan stepToward
            by_cases h1 : (geo s g n).1 < g.1
            · rw [if_pos h1]; simp
            · rw [if_neg h1, if_pos (by omega)]; simp
          omega
        have hlb : manhattan s g ≤
            manhattan s (stepToward (geo s g n).1 g.1, (geo s g n).2) +
              manhattan (stepToward (geo s g n).1 g.1, (geo s g n).2) g :=
          manhattan_triangle s _ g
        omega
      exact ⟨hb, ⟨hc1, hc2⟩, by omega, hfrom'⟩
    · rw [if_neg hrow]
      push_neg at hrow
      have hcol : (geo s g n).2 ≠ g.2 := by
        intro hc
        have : manhattan (geo s g n) g = 0 := by
          unfold manhattan
          omega
        omega
      have hstep : manhattan ((geo s g n).1, stepToward (geo s g n).2 g.2) g + 1 =
          manhattan (geo s g n) g := by
        unfold manhattan stepToward
        simp only []
        by_cases h1 : (geo s g n).2 < g.2
        · rw [if_pos h1]; omega
        · rw [if_neg h1, if_pos (by omega)]; omega
      have hb : min s.2 g.2 ≤ stepToward (geo s g n).2 g.2 ∧
          stepToward (geo s g n).2 g.2 ≤ max s.2 g.2 := by
        unfold stepToward
        by_cases h1 : (geo s g n).2 < g.2
        · rw [if_pos h1]; omega
        · rw [if_neg h1, if_pos (by omega)]; omega
      have hfrom' : manhattan s ((geo s g n).1, stepToward (geo s g n).2 g.2) = n + 1 := by
        have hub : manhattan s ((geo s g n).1, stepToward (geo s g n).2 g.2) ≤ n + 1 := by
          refine le_trans (manhattan_triangle s (geo s g n) _) ?_
          have : manhattan (geo s g n) ((geo s g n).1, stepToward (geo s g n).2 g.2) ≤ 1 := by
            unfold manhattan stepToward
            by_cases h1 : (geo s g n).2 < g.2
            · rw [if_pos h1]; simp
            · rw [if_neg h1, if_pos (by omega)]; simp
          omega
        have hlb : manhattan s g ≤
            manhattan s ((geo s g n).1, stepToward (geo s g n).2 g.2) +
              manhattan ((geo s g n).1, stepToward (geo s g n).2 g.2) g :=
          manhattan_triangle s _ g
        omega
      exact ⟨⟨hr1, hr2⟩, hb, by omega, hfrom'⟩

theorem geo_zero (s g : Cell) : geo s g 0 = s := rfl

theorem geo_last (s g : Cell) : geo s g (manhattan s g) = g := by
  have h := (geo_spec s g (manhattan s g) (le_refl _)).2.2.1
  exact manhattan_eq_zero (by omega)

theorem geo_to_goal {s g : Cell} {i : ℕ} (h : i ≤ manhattan s g) :
    manhattan (geo s g i) g = manhattan s g - i := by
  have := (geo_spec s g i h).2.2.1
  omega

theorem geo_from_start {s g : Cell} {i : ℕ} (h : i ≤ manhattan s g) :
    manhattan s (geo s g i) = i :=
  (geo_spec s g i h).2.2.2

theorem geo_adj {s g : Cell} {i : ℕ} (h : i < manhattan s g) :
    ∃ d ∈ nbrDirs, geo s g (i + 1) = shift (geo s g i) d := by
  have hspec := geo_spec s g i (by omega)
  have hpos : 1 ≤ manhattan (geo s g i) g := by omega
  rw [geo]
  by_cases hrow : (geo s g i).1 ≠ g.1
  · rw [if_pos hrow]
    unfold stepToward
    by_cases h1 : (geo s g i).1 < g.1
    · rw [if_pos h1]
      exact ⟨(1, 0), by simp [nbrDirs], by unfold shift; simp⟩
    · rw [if_neg h1, if_pos (by omega)]
      exact ⟨(-1, 0), by simp [nbrDirs], by unfold shift; simp; omega⟩
  · rw [if_neg hrow]
    push_neg at hrow
    have hcol : (geo s g i).2 ≠ g.2 := by
      intro hc
      have : manhattan (geo s g i) g = 0 := by unfold manhattan; omega
      omega
    unfold stepToward
    by_cases h1 : (geo s g i).2 < g.2
    · rw [if_pos h1]
      exact ⟨(0, 1), by simp [nbrDirs], by unfold shift; simp⟩
    · rw [if_neg h1, if_pos (by omega)]
      exact ⟨(0, -1), by simp [nbrDirs], by unfold shift; simp; omega⟩

/-! ### Claim C1 infrastructure: the A* loop invariant -/

/-- The in-bounds cells of the grid, as a finite set. -/
def boxFinset (grid : Grid) : Finset Cell :=
  Finset.Ico (0 : ℤ) (gridH grid) ×ˢ Finset.Ico (0 : ℤ) (gridW grid)

/-- All cells that can ever carry a `gscore`: the start plus the box. -/
def univFinset (start : Cell) (grid : Grid) : Finset Cell :=
  insert start (boxFinset grid)

/-- Number of cells currently carrying a `gscore`. -/
def domCard (start : Cell) (grid : Grid) (st : AState) : ℕ :=
  ((univFinset start grid).filter (fun c => ((st.gscore c).isSome = true))).card

theorem cellFree_mem_box {grid : Grid} {c : Cell} (h : cellFree grid c = true) :
    c ∈ boxFinset grid := by
  unfold cellFree at h
  split_ifs at h with hb
  · rcases hb with ⟨h1, h2, h3, h4⟩
    unfold boxFinset
    rw [Finset.mem_product, Finset.mem_Ico, Finset.mem_Ico]
    exact ⟨⟨h1, h2⟩, ⟨h3, h4⟩⟩

theorem univFinset_card (start : Cell) (grid : Grid) :
    (univFinset start grid).card ≤ gridH grid * gridW grid + 1 := by
  refine le_trans (Finset.card_insert_le _ _) ?_
  unfold boxFinset
  rw [Finset.card_product, Int.card_Ico, Int.card_Ico]
  simp

theorem relax_gscore_frame (goal : Cell) (grid : Grid) (current : Cell)
    (st : AState) (d : Cell) {c : Cell} (h : c ≠ shift current d) :
    (relax goal grid current st d).gscore c = st.gscore c := by
  refine relax_cases goal grid current st d
    (fun s => s.gscore c = st.gscore c) rfl ?_
  intro _ _
  simp only []
  rw [if_neg h]

/-- The full A* loop invariant needed for optimality on obstacle-free
grids: domain discipline of `gscore`, the cardinality bound that powers the
termination measure, the entry bound (every heap entry dominates its
cell's current `gscore` plus heuristic), the lower bound
(`gscore` values dominate the true straight-line distance), and the
`came`-tree structure (grid-adjacent edges with strictly decreasing
`gscore`, rooted at the start). -/
structure AInv (start goal : Cell) (grid : Grid) (st : AState) : Prop where
  dom_mem : ∀ c, (st.gscore c).isSome → c = start ∨ cellFree grid c = true
  card_bound : ∀ c v, st.gscore c = some v → v + 1 ≤ domCard start grid st
  heap_gscore : ∀ e ∈ st.heap, (st.gscore e.2).isSome
  entry_bound : ∀ e ∈ st.heap, ∀ v, st.gscore e.2 = some v →
    v + manhattan e.2 goal ≤ e.1
  lower_bound : ∀ c v, st.gscore c = some v → manhattan start c ≤ v
  start_zero : st.gscore start = some 0
  came_adj : ∀ c q, st.came c = some q → ∃ d ∈ nbrDirs, c = shift q d
  came_dec : ∀ c q, st.came c = some q →
    ∃ vc vq, st.gscore c = some vc ∧ st.gscore q = some vq ∧ vq < vc
  came_cov : ∀ c, (st.gscore c).isSome → c ≠ start → (st.came c).isSome
  came_none_start : st.came start = none

theorem domCard_mono {start goal : Cell} {grid : Grid} {st : AState}
    {current d : Cell} :
    domCard start grid st ≤ domCard start grid (relax goal grid current st d) := by
  unfold domCard
  refine Finset.card_le_card ?_
  intro c hc
  rw [Finset.mem_filter] at hc ⊢
  exact ⟨hc.1, relax_gscore_isSome goal grid current st d hc.2⟩

theorem relax_AInv {start goal : Cell} {grid : Grid} {st : AState}
    {current d : Cell} {vc : ℕ} (hd : d ∈ nbrDirs)
    (hcv : st.gscore current = some vc)
    (hinv : AInv start goal grid st) :
    AInv start goal grid (relax goal grid current st d) := by
  refine relax_cases goal grid current st d (AInv start goal grid) hinv ?_
  intro hfree hlt
  simp only [hcv, Option.getD_some] at hlt ⊢
  have hcn : current ≠ shift current d := (shift_ne_self current hd).symm
  have hns : shift current d ≠ start := by
    intro h
    rw [h, hinv.start_zero] at hlt
    simp at hlt
  have hbox : shift current d ∈ boxFinset grid := cellFree_mem_box hfree
  have huniv : shift current d ∈ univFinset start grid :=
    Finset.mem_insert_of_mem hbox
  have hcuniv : current ∈ univFinset start grid := by
    rcases hinv.dom_mem current (by simp [hcv]) with h | h
    · rw [h]; exact Finset.mem_insert_self _ _
    · exact Finset.mem_insert_of_mem (cellFree_mem_box h)
  have hfilter :
      (univFinset start grid).filter
          (fun c => ((if c = shift current d then some (vc + 1)
            else st.gscore c).isSome = true)) =
        insert (shift current d)
          ((univFinset start grid).filter (fun c => ((st.gscore c).isSome = true))) := by
    ext c
    simp only [Finset.mem_filter, Finset.mem_insert]
    constructor
    · rintro ⟨hcu, hcs⟩
      by_cases h : c = shift current d
      · exact Or.inl h
      · rw [if_neg h] at hcs
        exact Or.inr ⟨hcu, hcs⟩
    · rintro (rfl | ⟨hcu, hcs⟩)
      · exact ⟨huniv, by simp⟩
      · refine ⟨hcu, ?_⟩
        by_cases h : c = shift current d
        · rw [if_pos h]; simp
        · rw [if_neg h]; exact hcs
  have hcard_mono : domCard start grid st ≤
      ((univFinset start grid).filter
        (fun c => ((if c = shift current d then some (vc + 1)
          else st.gscore c).isSome = true))).card := by
    rw [hfilter]
    exact Finset.card_le_card (Finset.subset_insert _ _)
  unfold domCard at hcard_mono
  constructor
  · -- dom_mem
    intro c hc
    dsimp only at hc
    by_cases h : c = shift current d
    · exact Or.inr (h ▸ hfree)
    · simp only [h, if_false] at hc
      exact hinv.dom_mem c hc
  · -- card_bound
    intro c v hv
    dsimp only at hv ⊢
    unfold domCard
    dsimp only
    by_cases h : c = shift current d
    · rw [h, if_pos rfl] at hv
      obtain rfl : vc + 1 = v := by simpa using hv
      cases hng : st.gscore (shift current d) with
      | none =>
        have hnotmem : shift current d ∉
            (univFinset start grid).filter (fun c => ((st.gscore c).isSome = true)) := by
          intro hmem
          rw [Finset.mem_filter, hng] at hmem
          simp at hmem
        have h2 := hinv.card_bound current vc hcv
        rw [hfilter, Finset.card_insert_of_not_mem hnotmem]
        unfold domCard at h2
        omega
      | some vold =>
        rw [hng] at hlt
        simp only [Option.getD_some] at hlt
        have h1 := hinv.card_bound _ vold hng
        unfold domCard at h1
        omega
    · rw [if_neg h] at hv
      have h2 := hinv.card_bound c v hv
      unfold domCard at h2
      omega
  · -- heap_gscore
    intro e he
    dsimp only at he ⊢
    rcases List.mem_cons.1 he with rfl | he'
    · simp
    · by_cases h : e.2 = shift current d
      · rw [h]; simp
      · simp only [h, if_false]
        exact hinv.heap_gscore e he'
  · -- entry_bound
    intro e he v hv
    dsimp only at he hv ⊢
    rcases List.mem_cons.1 he with rfl | he'
    · simp only [if_pos rfl] at hv
      obtain rfl : vc + 1 = v := by simpa using hv
      simp
    · by_cases h : e.2 = shift current d
      · rw [h, if_pos rfl] at hv
        obtain rfl : vc + 1 = v := by simpa using hv
        obtain ⟨vold, hvold⟩ := Option.isSome_iff_exists.1 (hinv.heap_gscore e he')
        have h1 := hinv.entry_bound e he' vold hvold
        rw [h] at hvold h1
        rw [hvold] at hlt
        simp only [Option.getD_some] at hlt
        rw [h]
        omega
      · rw [if_neg h] at hv
        exact hinv.entry_bound e he' v hv
  · -- lower_bound
    intro c v hv
    dsimp only at hv
    by_cases h : c = shift current d
    · rw [h, if_pos rfl] at hv
      obtain rfl : vc + 1 = v := by simpa using hv
      subst h
      refine le_trans (manhattan_triangle start current (shift current d)) ?_
      have h1 := hinv.lower_bound current vc hcv
      have h2 := manhattan_shift current d hd
      omega
    · rw [if_neg h] at hv
      exact hinv.lower_bound c v hv
  · -- start_zero
    dsimp only
    rw [if_neg (fun h => hns h.symm)]
    exact hinv.start_zero
  · -- came_adj
    intro c q hc
    dsimp only at hc
    by_cases h : c = shift current d
    · rw [h, if_pos rfl] at hc
      obtain rfl : current = q := by simpa using hc
      exact ⟨d, hd, h⟩
    · rw [if_neg h] at hc
      exact hinv.came_adj c q hc
  · -- came_dec
    intro c q hc
    dsimp only at hc ⊢
    by_cases h : c = shift current d
    · rw [h, if_pos rfl] at hc
      obtain rfl : current = q := by simpa using hc
      refine ⟨vc + 1, vc, ?_, ?_, by omega⟩
      · rw [h, if_pos rfl]
      · rw [if_neg (fun hh => hcn hh)]
        exact hcv
    · rw [if_neg h] at hc
      obtain ⟨vc', vq', h1, h2, h3⟩ := hinv.came_dec c q hc
      by_cases hq : q = shift current d
      · rw [hq] at h2
        rw [h2] at hlt
        simp only [Option.getD_some] at hlt
        refine ⟨vc', vc + 1, by rw [if_neg h]; exact h1, ?_, by omega⟩
        rw [hq, if_pos rfl]
      · exact ⟨vc', vq', by rw [if_neg h]; exact h1, by rw [if_neg hq]; exact h2, h3⟩
  · -- came_cov
    intro c hc hcs
    dsimp only at hc ⊢
    by_cases h : c = shift current d
    · rw [h, if_pos rfl]; simp
    · rw [if_neg h]
      rw [if_neg h] at hc
      exact hinv.came_cov c hc hcs
  · -- came_none_start
    dsimp only
    rw [if_neg (fun h => hns h.symm)]
    exact hinv.came_none_start

theorem pop_AInv {start goal : Cell} {grid : Grid} {st : AState}
    {e : ℕ × Cell} {rest : List (ℕ × Cell)}
    (hpop : heapPop st.heap = some (e, rest)) (hinv : AInv start goal grid st) :
    AInv start goal grid { st with heap := rest } := by
  refine ⟨hinv.dom_mem, ?_, ?_, ?_, hinv.lower_bound, hinv.start_zero,
    hinv.came_adj, hinv.came_dec, hinv.came_cov, hinv.came_none_start⟩
  · intro c v hv
    exact hinv.card_bound c v hv
  · intro x hx
    exact hinv.heap_gscore x (heapPop_rest_subset hpop x hx)
  · intro x hx
    exact hinv.entry_bound x (heapPop_rest_subset hpop x hx)

/-- The per-cell weight used by the termination measure. -/
def BB (grid : Grid) : ℕ := gridH grid * gridW grid + 2

def weight (grid : Grid) (st : AState) (c : Cell) : ℕ :=
  min ((st.gscore c).getD (BB grid)) (BB grid)

def sumWeight (start : Cell) (grid : Grid) (st : AState) : ℕ :=
  Finset.sum (univFinset start grid) (weight grid st)

/-- The measure that strictly decreases on every `astar` loop iteration. -/
def mu (start : Cell) (grid : Grid) (st : AState) : ℕ :=
  st.heap.length + 5 * sumWeight start grid st

theorem mu_push_le {start : Cell} {grid : Grid} (st st2 : AState) (n : Cell)
    (hlen : st2.heap.length = st.heap.length + 1)
    (hn : n ∈ univFinset start grid)
    (hdec : weight grid st2 n + 1 ≤ weight grid st n)
    (hframe : ∀ c, c ≠ n → st2.gscore c = st.gscore c) :
    mu start grid st2 ≤ mu start grid st := by
  have hwf : ∀ c ∈ (univFinset start grid).erase n,
      weight grid st2 c = weight grid st c := by
    intro c hc
    unfold weight
    rw [hframe c (Finset.ne_of_mem_erase hc)]
  have e1 : ((univFinset start grid).erase n).sum (weight grid st2) + weight grid st2 n
      = (univFinset start grid).sum (weight grid st2) := Finset.sum_erase_add _ _ hn
  have e2 : ((univFinset start grid).erase n).sum (weight grid st) + weight grid st n
      = (univFinset start grid).sum (weight grid st) := Finset.sum_erase_add _ _ hn
  have hsc : ((univFinset start grid).erase n).sum (weight grid st2)
      = ((univFinset start grid).erase n).sum (weight grid st) :=
    Finset.sum_congr rfl hwf
  unfold mu sumWeight
  omega

theorem relax_AInv_mu {start goal : Cell} {grid : Grid} {st : AState}
    {current d : Cell} {vc : ℕ} (hd : d ∈ nbrDirs)
    (hcv : st.gscore current = some vc) (hinv : AInv start goal grid st) :
    AInv start goal grid (relax goal grid current st d) ∧
    mu start grid (relax goal grid current st d) ≤ mu start grid st ∧
    (relax goal grid current st d).gscore current = some vc := by
  refine ⟨relax_AInv hd hcv hinv, ?_, ?_⟩
  · refine relax_cases goal grid current st d
      (fun s => mu start grid s ≤ mu start grid st) (le_refl _) ?_
    intro hfree hlt
    simp only [hcv, Option.getD_some] at hlt
    have huniv : shift current d ∈ univFinset start grid :=
      Finset.mem_insert_of_mem (cellFree_mem_box hfree)
    have hvcb : vc + 1 + 1 ≤ BB grid := by
      have h1 := hinv.card_bound current vc hcv
      have h2 := univFinset_card start grid
      have h3 : domCard start grid st ≤ (univFinset start grid).card :=
        Finset.card_le_card (Finset.filter_subset _ _)
      unfold BB
      omega
    refine mu_push_le st _ (shift current d) (by simp) huniv ?_ ?_
    · unfold weight
      dsimp only
      rw [if_pos rfl]
      simp only [hcv, Option.getD_some]
      cases hng : st.gscore (shift current d) with
      | none => simp only [Option.getD_some, Option.getD_none]; omega
      | some vold =>
        rw [hng] at hlt
        simp only [Option.getD_some] at hlt ⊢
        have hvob : vold + 1 ≤ BB grid := by
          have h1 := hinv.card_bound _ vold hng
          have h2 := univFinset_card start grid
          have h3 : domCard start grid st ≤ (univFinset start grid).card :=
            Finset.card_le_card (Finset.filter_subset _ _)
          unfold BB
          omega
        omega
    · intro c hc
      dsimp only
      rw [if_neg hc]
  · rw [relax_gscore_frame goal grid current st d
      (fun h => (shift_ne_self current hd) h.symm)]
    exact hcv

theorem expand_AInv_mu {start goal : Cell} {grid : Grid} {st : AState}
    {current : Cell} {vc : ℕ}
    (hcv : st.gscore current = some vc) (hinv : AInv start goal grid st) :
    AInv start goal grid (expand goal grid current st) ∧
    mu start grid (expand goal grid current st) ≤ mu start grid st ∧
    (expand goal grid current st).gscore current = some vc := by
  obtain ⟨i1, m1, c1⟩ :=
    @relax_AInv_mu start goal grid st current (1, 0) vc (by decide) hcv hinv
  obtain ⟨i2, m2, c2⟩ :=
    @relax_AInv_mu start goal grid _ current (-1, 0) vc (by decide) c1 i1
  obtain ⟨i3, m3, c3⟩ :=
    @relax_AInv_mu start goal grid _ current (0, 1) vc (by decide) c2 i2
  obtain ⟨i4, m4, c4⟩ :=
    @relax_AInv_mu start goal grid _ current (0, -1) vc (by decide) c3 i3
  have hexp : expand goal grid current st =
      relax goal grid current (relax goal grid current (relax goal grid current
        (relax goal grid current st (1, 0)) (-1, 0)) (0, 1)) (0, -1) := by
    unfold expand nbrDirs
    simp only [List.foldl_cons, List.foldl_nil]
  rw [hexp]
  exact ⟨i4, le_trans m4 (le_trans m3 (le_trans m2 m1)), c4⟩

/-- `gscore` values only ever improve under a relaxation. -/
theorem relax_gscore_dec (goal : Cell) (grid : Grid) (current : Cell)
    (st : AState) (d : Cell) {c : Cell} {v : ℕ} (h : st.gscore c = some v) :
    ∃ v' ≤ v, (relax goal grid current st d).gscore c = some v' := by
  rcases relax_effect goal grid current st d c with h1 | ⟨t, ht, hdec, _⟩
  · exact ⟨v, le_refl v, by rw [h1, h]⟩
  · exact ⟨t, le_of_lt (hdec v h), ht⟩

theorem expand_gscore_dec (goal : Cell) (grid : Grid) (current : Cell)
    (st : AState) {c : Cell} {v : ℕ} (h : st.gscore c = some v) :
    ∃ v' ≤ v, (expand goal grid current st).gscore c = some v' := by
  rcases expand_effect goal grid current st c with h1 | ⟨t, ht, hdec, _⟩
  · exact ⟨v, le_refl v, by rw [h1, h]⟩
  · exact ⟨t, le_of_lt (hdec v h), ht⟩

theorem eraseEntry_mem_of_ne {x m : ℕ × Cell} :
    ∀ {l : List (ℕ × Cell)}, x ∈ l → x ≠ m → x ∈ eraseEntry l m := by
  intro l hx hne
  induction l with
  | nil => cases hx
  | cons y ys ih =>
    unfold eraseEntry
    by_cases hy : y = m
    · rw [if_pos hy]
      rcases List.mem_cons.1 hx with rfl | h
      · exact absurd hy hne
      · exact h
    · rw [if_neg hy]
      rcases List.mem_cons.1 hx with rfl | h
      · exact List.mem_cons_self _ _
      · exact List.mem_cons_of_mem _ (ih h)

/-- A non-popped entry survives `heapq.heappop`. -/
theorem heapPop_mem_rest {l : List (ℕ × Cell)} {e : ℕ × Cell}
    {rest : List (ℕ × Cell)} (h : heapPop l = some (e, rest)) {x : ℕ × Cell}
    (hx : x ∈ l) (hne : x ≠ e) : x ∈ rest := by
  match l, h with
  | a :: as, h =>
    simp only [heapPop, Option.some.injEq, Prod.mk.injEq] at h
    obtain ⟨he, hrest⟩ := h
    subst he
    subst hrest
    exact eraseEntry_mem_of_ne hx hne


theorem shift_ne_shift {c d₁ d₂ : Cell} (h : d₁ ≠ d₂) :
    shift c d₁ ≠ shift c d₂ :=
  fun he => h (shift_inj he)

/-- A relaxation whose admission and improvement tests pass records the new
`gscore` and pushes the corresponding heap entry. -/
theorem relax_fire (goal : Cell) (grid : Grid) (current : Cell) (st : AState)
    (d : Cell) (hfree : cellFree grid (shift current d) = true)
    (hlt : (st.gscore current).getD 0 + 1 <
      (st.gscore (shift current d)).getD 1000000000) :
    (relax goal grid current st d).gscore (shift current d) =
      some ((st.gscore current).getD 0 + 1) ∧
    ((st.gscore current).getD 0 + 1 + manhattan (shift current d) goal,
      shift current d) ∈ (relax goal grid current st d).heap := by
  unfold relax
  rw [if_pos hfree, if_pos hlt]
  constructor
  · simp
  · exact List.mem_cons_self _ _

theorem foldl_relax_gscore_frame (goal : Cell) (grid : Grid) (current : Cell)
    {c : Cell} : ∀ (ds : List Cell) (st : AState),
      (∀ d ∈ ds, c ≠ shift current d) →
      (ds.foldl (relax goal grid current) st).gscore c = st.gscore c := by
  intro ds
  induction ds with
  | nil => intro st _; rfl
  | cons d ds ih =>
    intro st hne
    rw [List.foldl_cons,
      ih _ (fun d' hd' => hne d' (List.mem_cons_of_mem _ hd')),
      relax_gscore_frame goal grid current st d (hne d (List.mem_cons_self _ _))]

/-- Threading one firing relaxation through the rest of the neighbour loop:
the recorded `gscore` and the pushed entry survive the remaining
relaxations. -/
theorem fire_through (goal : Cell) (grid : Grid) (current : Cell)
    (pre post : List Cell) (st : AState) (d : Cell) (j : ℕ)
    (hpre_nbr : ∀ d' ∈ pre, d' ∈ nbrDirs)
    (hpre_ne : ∀ d' ∈ pre, d' ≠ d)
    (hpost_ne : ∀ d' ∈ post, d' ≠ d)
    (hcv : st.gscore current = some j)
    (hfree : cellFree grid (shift current d) = true)
    (hlt : j + 1 < (st.gscore (shift current d)).getD 1000000000) :
    (List.foldl (relax goal grid current) (relax goal grid current
      (List.foldl (relax goal grid current) st pre) d) post).gscore
        (shift current d) = some (j + 1) ∧
    (j + 1 + manhattan (shift current d) goal, shift current d) ∈
      (List.foldl (relax goal grid current) (relax goal grid current
        (List.foldl (relax goal grid current) st pre) d) post).heap := by
  have hne1 : ∀ d' ∈ pre, current ≠ shift current d' :=
    fun d' hd' => (shift_ne_self current (hpre_nbr d' hd')).symm
  have hne2 : ∀ d' ∈ pre, shift current d ≠ shift current d' :=
    fun d' hd' => shift_ne_shift (fun hh => hpre_ne d' hd' hh.symm)
  have hne3 : ∀ d' ∈ post, shift current d ≠ shift current d' :=
    fun d' hd' => shift_ne_shift (fun hh => hpost_ne d' hd' hh.symm)
  have hpc : (List.foldl (relax goal grid current) st pre).gscore current =
      some j := by
    rw [foldl_relax_gscore_frame goal grid current pre st hne1]
    exact hcv
  have hpn : (List.foldl (relax goal grid current) st pre).gscore
      (shift current d) = st.gscore (shift current d) :=
    foldl_relax_gscore_frame goal grid current pre st hne2
  obtain ⟨hg, hm⟩ := relax_fire goal grid current
    (List.foldl (relax goal grid current) st pre) d hfree
    (by rw [hpc, hpn]; simpa using hlt)
  rw [hpc] at hg hm
  simp only [Option.getD_some] at hg hm
  constructor
  · rw [foldl_relax_gscore_frame goal grid current post _ hne3]
    exact hg
  · exact foldl_relax_heap_subset goal grid current post _ _ hm

/-- If a neighbour of the expanded cell is free and its current `gscore`
beats the improvement test, the full neighbour loop records the improved
`gscore` and pushes the matching heap entry. -/
theorem expand_fires {goal : Cell} {grid : Grid} {current : Cell}
    {st : AState} {d : Cell} (hd : d ∈ nbrDirs) {j : ℕ}
    (hcv : st.gscore current = some j)
    (hfree : cellFree grid (shift current d) = true)
    (hlt : j + 1 < (st.gscore (shift current d)).getD 1000000000) :
    (expand goal grid current st).gscore (shift current d) = some (j + 1) ∧
    (j + 1 + manhattan (shift current d) goal, shift current d) ∈
      (expand goal grid current st).heap := by
  fin_cases hd
  · have he : expand goal grid current st =
        List.foldl (relax goal grid current) (relax goal grid current
          (List.foldl (relax goal grid current) st []) (1, 0))
          [(-1, 0), (0, 1), (0, -1)] := by
      unfold expand nbrDirs
      simp only [List.foldl_cons, List.foldl_nil]
    rw [he]
    exact fire_through goal grid current [] [(-1, 0), (0, 1), (0, -1)] st
      (1, 0) j (by decide) (by decide) (by decide) hcv hfree hlt
  · have he : expand goal grid current st =
        List.foldl (relax goal grid current) (relax goal grid current
          (List.foldl (relax goal grid current) st [(1, 0)]) (-1, 0))
          [(0, 1), (0, -1)] := by
      unfold expand nbrDirs
      simp only [List.foldl_cons, List.foldl_nil]
    rw [he]
    exact fire_through goal grid current [(1, 0)] [(0, 1), (0, -1)] st
      (-1, 0) j (by decide) (by decide) (by decide) hcv hfree hlt
  · have he : expand goal grid current st =
        List.foldl (relax goal grid current) (relax goal grid current
          (List.foldl (relax goal grid current) st [(1, 0), (-1, 0)]) (0, 1))
          [(0, -1)] := by
      unfold expand nbrDirs
      simp only [List.foldl_cons, List.foldl_nil]
    rw [he]
    exact fire_through goal grid current [(1, 0), (-1, 0)] [(0, -1)] st
      (0, 1) j (by decide) (by decide) (by decide) hcv hfree hlt
  · have he : expand goal grid current st =
        List.foldl (relax goal grid current) (relax goal grid current
          (List.foldl (relax goal grid current) st [(1, 0), (-1, 0), (0, 1)])
          (0, -1)) [] := by
      unfold expand nbrDirs
      simp only [List.foldl_cons, List.foldl_nil]
    rw [he]
    exact fire_through goal grid current [(1, 0), (-1, 0), (0, 1)] [] st
      (0, -1) j (by decide) (by decide) (by decide) hcv hfree hlt

/-- On a rectangular all-zero grid every in-bounds cell passes the
admission test. -/
theorem cellFree_of_free (grid : Grid) (c : Cell)
    (hrect : ∀ row ∈ grid, row.length = gridW grid)
    (hzero : ∀ row ∈ grid, ∀ x ∈ row, x = 0)
    (h1 : 0 ≤ c.1) (h2 : c.1 < (gridH grid : ℤ))
    (h3 : 0 ≤ c.2) (h4 : c.2 < (gridW grid : ℤ)) :
    cellFree grid c = true := by
  unfold cellFree
  rw [if_pos ⟨h1, h2, h3, h4⟩]
  have hr : c.1.toNat < grid.length := by
    unfold gridH at h2
    omega
  rw [List.getD_eq_getElem grid [] hr]
  have hmemr : grid[c.1.toNat] ∈ grid := List.getElem_mem hr
  have hlen := hrect _ hmemr
  have hcn : c.2.toNat < (grid[c.1.toNat]).length := by
    rw [hlen]
    omega
  rw [List.getD_eq_getElem _ 1 hcn]
  rw [hzero _ hmemr _ (List.getElem_mem hcn)]
  rfl

/-- Every cell of the canonical geodesic is admissible on a rectangular
all-zero grid whose endpoints are in bounds. -/
theorem geo_cellFree {start goal : Cell} {grid : Grid}
    (hrect : ∀ row ∈ grid, row.length = gridW grid)
    (hzero : ∀ row ∈ grid, ∀ x ∈ row, x = 0)
    (hs : start ∈ boxFinset grid) (hg : goal ∈ boxFinset grid)
    {i : ℕ} (hi : i ≤ manhattan start goal) :
    cellFree grid (geo start goal i) = true := by
  obtain ⟨⟨hr1, hr2⟩, ⟨hc1, hc2⟩, _, _⟩ := geo_spec start goal i hi
  unfold boxFinset at hs hg
  rw [Finset.mem_product, Finset.mem_Ico, Finset.mem_Ico] at hs hg
  obtain ⟨⟨hsa, hsb⟩, hsc, hsd⟩ := hs
  obtain ⟨⟨hga, hgb⟩, hgc, hgd⟩ := hg
  exact cellFree_of_free grid _ hrect hzero (by omega) (by omega) (by omega)
    (by omega)

/-- The indices of geodesic cells whose `gscore` has settled to the exact
straight-line distance from the start. -/
def Jset (start goal : Cell) (st : AState) : Finset ℕ :=
  (Finset.range (manhattan start goal + 1)).filter
    (fun j => st.gscore (geo start goal j) = some j)

/-- The furthest settled geodesic index. -/
def jmaxOf (start goal : Cell) (st : AState) : ℕ :=
  (Jset start goal st).sup id

/-- Liveness invariant: the furthest settled geodesic cell still owns a
pending heap entry whose key does not exceed the total distance. -/
def IJ (start goal : Cell) (st : AState) : Prop :=
  ∃ f ≤ manhattan start goal,
    (f, geo start goal (jmaxOf start goal st)) ∈ st.heap

theorem Jset_mem_iff {start goal : Cell} {st : AState} {j : ℕ} :
    j ∈ Jset start goal st ↔
      j ≤ manhattan start goal ∧ st.gscore (geo start goal j) = some j := by
  unfold Jset
  rw [Finset.mem_filter, Finset.mem_range]
  constructor
  · rintro ⟨h1, h2⟩
    exact ⟨by omega, h2⟩
  · rintro ⟨h1, h2⟩
    exact ⟨by omega, h2⟩

theorem zero_mem_Jset {start goal : Cell} {st : AState}
    (h : st.gscore start = some 0) : 0 ∈ Jset start goal st := by
  rw [Jset_mem_iff]
  exact ⟨Nat.zero_le _, by rw [geo_zero]; exact h⟩

theorem sup_id_mem (S : Finset ℕ) (h : S.Nonempty) : S.sup id ∈ S := by
  rw [← Finset.sup'_eq_sup h id, ← Finset.max'_eq_sup']
  exact S.max'_mem h

theorem le_jmax {start goal : Cell} {st : AState} {j : ℕ}
    (h : j ∈ Jset start goal st) : j ≤ jmaxOf start goal st := by
  unfold jmaxOf
  exact @Finset.le_sup ℕ ℕ _ _ (Jset start goal st) id j h

theorem jmax_le {start goal : Cell} (st : AState) :
    jmaxOf start goal st ≤ manhattan start goal := by
  refine Finset.sup_le ?_
  intro j hj
  exact (Jset_mem_iff.1 hj).1

theorem jmax_mem {start goal : Cell} {st : AState}
    (h : st.gscore start = some 0) :
    jmaxOf start goal st ∈ Jset start goal st :=
  sup_id_mem _ ⟨0, zero_mem_Jset h⟩

/-- One non-goal iteration of the `astar` loop preserves the liveness
invariant: after popping and expanding, the furthest settled geodesic cell
again owns a heap entry with key at most the total distance. -/
theorem step_IJ {start goal : Cell} {grid : Grid} {st : AState}
    {e : ℕ × Cell} {rest : List (ℕ × Cell)}
    (hrect : ∀ row ∈ grid, row.length = gridW grid)
    (hzero : ∀ row ∈ grid, ∀ x ∈ row, x = 0)
    (hs : start ∈ boxFinset grid) (hg : goal ∈ boxFinset grid)
    (hM : manhattan start goal < 1000000000)
    (hpop : heapPop st.heap = some (e, rest))
    (hng : e.2 ≠ goal)
    (hinv : AInv start goal grid st)
    (hIJ : IJ start goal st)
    (hinv' : AInv start goal grid
      (expand goal grid e.2 { st with heap := rest })) :
    IJ start goal (expand goal grid e.2 { st with heap := rest }) := by
  unfold IJ at hIJ ⊢
  obtain ⟨f, hfM, hfmem⟩ := hIJ
  have hjmem : jmaxOf start goal st ∈ Jset start goal st :=
    jmax_mem hinv.start_zero
  set j := jmaxOf start goal st with hj
  set st' := expand goal grid e.2 { st with heap := rest } with hst'
  obtain ⟨hjM, hgj⟩ := Jset_mem_iff.1 hjmem
  have hstab : ∀ k, k ∈ Jset start goal st → k ∈ Jset start goal st' := by
    intro k hk
    obtain ⟨hkM, hgk⟩ := Jset_mem_iff.1 hk
    obtain ⟨v', hv'le, hv'⟩ := expand_gscore_dec goal grid e.2
      { st with heap := rest }
      (show ({ st with heap := rest } : AState).gscore (geo start goal k) =
        some k from hgk)
    rw [← hst'] at hv'
    have hlb := hinv'.lower_bound _ v' hv'
    rw [geo_from_start hkM] at hlb
    have hveq : v' = k := le_antisymm hv'le hlb
    rw [hveq] at hv'
    exact Jset_mem_iff.2 ⟨hkM, hv'⟩
  have hj'mem : jmaxOf start goal st' ∈ Jset start goal st' :=
    jmax_mem hinv'.start_zero
  set j' := jmaxOf start goal st' with hj'
  obtain ⟨hj'M, hgj'⟩ := Jset_mem_iff.1 hj'mem
  have hjle : j ≤ j' := le_jmax (hstab j hjmem)
  by_cases hlt : j < j'
  · have hold : st.gscore (geo start goal j') ≠ some j' := by
      intro hcontra
      have hm := le_jmax (Jset_mem_iff.2 ⟨hj'M, hcontra⟩)
      rw [← hj] at hm
      omega
    rcases expand_effect goal grid e.2 { st with heap := rest }
        (geo start goal j') with hunch | ⟨t, ht, _, hmem⟩
    · rw [← hst'] at hunch
      exact absurd (hunch.symm.trans hgj') hold
    · rw [← hst'] at ht hmem
      have ht' : t = j' := Option.some.inj (ht.symm.trans hgj')
      rw [ht'] at hmem
      refine ⟨j' + manhattan (geo start goal j') goal, ?_, hmem⟩
      rw [geo_to_goal hj'M]
      omega
  · have hj'j : j' = j := le_antisymm (by omega) hjle
    by_cases hew : (f, geo start goal j) = e
    · have he2 : e.2 = geo start goal j := by rw [← hew]
      have hjltM : j < manhattan start goal := by
        rcases lt_or_eq_of_le hjM with h | h
        · exact h
        · exact absurd (by rw [he2, h, geo_last]) hng
      obtain ⟨d, hd, hstep⟩ := geo_adj hjltM
      have hsh : shift e.2 d = geo start goal (j + 1) := by
        rw [he2, ← hstep]
      have hfreen : cellFree grid (shift e.2 d) = true := by
        rw [hsh]
        exact geo_cellFree hrect hzero hs hg (by omega)
      have hcv1 : ({ st with heap := rest } : AState).gscore e.2 = some j := by
        show st.gscore e.2 = some j
        rw [he2]
        exact hgj
      have hcond : j + 1 <
          (({ st with heap := rest } : AState).gscore (shift e.2 d)).getD
            1000000000 := by
        show j + 1 < (st.gscore (shift e.2 d)).getD 1000000000
        rw [hsh]
        cases hcase : st.gscore (geo start goal (j + 1)) with
        | none =>
          simp only [Option.getD_none]
          omega
        | some v =>
          have hlbv := hinv.lower_bound _ v hcase
          rw [geo_from_start (by omega)] at hlbv
          have hne : v ≠ j + 1 := by
            intro hveq
            have hmm := le_jmax
              ((@Jset_mem_iff start goal st (j + 1)).2
                ⟨by omega, by rw [hcase, hveq]⟩)
            rw [← hj] at hmm
            omega
          simp only [Option.getD_some]
          omega
      obtain ⟨hgfire, _⟩ := expand_fires hd hcv1 hfreen hcond
      rw [hsh, ← hst'] at hgfire
      have hmm := le_jmax
        ((@Jset_mem_iff start goal st' (j + 1)).2 ⟨by omega, hgfire⟩)
      rw [← hj'] at hmm
      omega
    · have hin : (f, geo start goal j) ∈ rest :=
        heapPop_mem_rest hpop hfmem hew
      refine ⟨f, hfM, ?_⟩
      rw [hj'j]
      have hup := expand_heap_subset goal grid e.2 { st with heap := rest }
        (f, geo start goal j) hin
      rw [← hst'] at hup
      exact hup

/-- Walking the `came` chain from any scored cell terminates at the start
and yields a path whose cell count is squeezed between the straight-line
distance and the cell's `gscore`. -/
theorem reconstruct_spec {start goal : Cell} {grid : Grid} {st : AState}
    (hinv : AInv start goal grid st) :
    ∀ v current, st.gscore current = some v →
      ∀ fuel, v ≤ fuel → ∀ acc : List Cell,
      ∃ l, reconstruct st.came fuel current acc = some (l ++ acc) ∧
        l.length ≤ v ∧ manhattan start current ≤ l.length := by
  intro v
  induction v using Nat.strong_induction_on with
  | _ v ih =>
    intro current hcur fuel hfuel acc
    cases hc : st.came current with
    | none =>
      have hstart : current = start := by
        by_contra hne
        have hsome := hinv.came_cov current (by rw [hcur]; rfl) hne
        rw [hc] at hsome
        exact absurd hsome (by simp)
      refine ⟨[], ?_, by simp, ?_⟩
      · rw [reconstruct_eq_of_none hc]
        simp
      · rw [hstart, manhattan_self]
        exact Nat.zero_le _
    | some prev =>
      obtain ⟨vc, vq, hvc, hvq, hlt⟩ := hinv.came_dec current prev hc
      have hvcv : vc = v := Option.some.inj (hvc.symm.trans hcur)
      obtain ⟨f', rfl⟩ : ∃ f', fuel = f' + 1 := by
        cases fuel with
        | zero => exact absurd hfuel (by omega)
        | succ m => exact ⟨m, rfl⟩
      rw [reconstruct_eq_of_some_succ hc]
      obtain ⟨l', hrec, hlen, hman⟩ :=
        ih vq (by omega) prev hvq f' (by omega) (prev :: acc)
      refine ⟨l' ++ [prev], ?_, ?_, ?_⟩
      · rw [hrec]
        simp
      · simp
        omega
      · obtain ⟨d, hd, hcd⟩ := hinv.came_adj current prev hc
        have h2 : manhattan prev current = 1 := by
          rw [hcd]
          exact manhattan_shift prev d hd
        have h1 := manhattan_triangle start prev current
        simp
        omega

theorem astarLoop_pop (goal : Cell) (grid : Grid) (fuel : ℕ) (st : AState)
    (e : ℕ × Cell) (rest : List (ℕ × Cell))
    (h : heapPop st.heap = some (e, rest)) :
    astarLoop goal grid (fuel + 1) st =
      if e.2 = goal then
        match reconstruct st.came ((st.gscore e.2).getD 0 + 1) e.2 [e.2] with
        | none => none
        | some p => some (some p)
      else astarLoop goal grid fuel
        (expand goal grid e.2 { st with heap := rest }) := by
  rw [astarLoop_succ, h]

/-- Grand induction for the obstacle-free case: with the invariants in
force and enough fuel for the decreasing measure, the loop returns a path
with exactly `manhattan start goal + 1` cells. -/
theorem astarLoop_free {start goal : Cell} {grid : Grid}
    (hrect : ∀ row ∈ grid, row.length = gridW grid)
    (hzero : ∀ row ∈ grid, ∀ x ∈ row, x = 0)
    (hs : start ∈ boxFinset grid) (hg : goal ∈ boxFinset grid)
    (hM : manhattan start goal < 1000000000) :
    ∀ fuel (st : AState), AInv start goal grid st → IJ start goal st →
      mu start grid st < fuel →
      ∃ p, astarLoop goal grid fuel st = some (some p) ∧
        p.length = manhattan start goal + 1 := by
  intro fuel
  induction fuel with
  | zero =>
    intro st _ _ hmu
    exact absurd hmu (by omega)
  | succ n ih =>
    intro st hinv hIJ hmu
    obtain ⟨f, hfM, hfmem⟩ := hIJ
    cases hpop : heapPop st.heap with
    | none =>
      rw [heapPop_eq_none_iff] at hpop
      rw [hpop] at hfmem
      exact absurd hfmem (by simp)
    | some pr =>
      obtain ⟨e, rest⟩ := pr
      obtain ⟨hemem, hperm, hmin⟩ := heapPop_some hpop
      have hsome := hinv.heap_gscore e hemem
      obtain ⟨ve, hve⟩ := Option.isSome_iff_exists.1 hsome
      have heM : e.1 ≤ manhattan start goal :=
        le_trans (fst_le_of_not_entryLt (hmin _ hfmem)) hfM
      by_cases hgoal : e.2 = goal
      · -- the goal is popped with its exact distance
        have hub := hinv.entry_bound e hemem ve hve
        rw [hgoal, manhattan_self] at hub
        have hlb := hinv.lower_bound e.2 ve hve
        rw [hgoal] at hlb
        have hveM : ve = manhattan start goal := by omega
        obtain ⟨l, hrec, hlle, hlge⟩ := reconstruct_spec hinv ve e.2 hve
          ((st.gscore e.2).getD 0 + 1) (by rw [hve]; simp) [e.2]
        rw [hgoal] at hlge
        have hllen : l.length = manhattan start goal := by omega
        rw [astarLoop_pop goal grid n st e rest hpop, if_pos hgoal, hrec]
        refine ⟨l ++ [e.2], rfl, ?_⟩
        simp [hllen]
      · -- a non-goal pop: invariants and measure carry the recursion
        rw [astarLoop_pop goal grid n st e rest hpop, if_neg hgoal]
        have hinv1 := pop_AInv hpop hinv
        have hcv1 : ({ st with heap := rest } : AState).gscore e.2 = some ve :=
          hve
        obtain ⟨hinv', hmule, _⟩ := expand_AInv_mu hcv1 hinv1
        have hIJ' := step_IJ hrect hzero hs hg hM hpop hgoal hinv
          ⟨f, hfM, hfmem⟩ hinv'
        have hmueq : mu start grid { st with heap := rest } + 1 =
            mu start grid st := by
          unfold mu
          have hsw : sumWeight start grid { st with heap := rest } =
              sumWeight start grid st := rfl
          rw [hsw]
          have hlen := heapPop_length hpop
          simp only []
          omega
        exact ih _ hinv' hIJ' (by omega)

/-- Claim C1 (amended): on a rectangular all-zero (obstacle-free) grid with
both endpoints in bounds and Manhattan distance below the hard-coded
`1e9` default of `gscore.get(neigh, 1e9)`, `astar` returns a path, and that
path is shortest: it has exactly `manhattan start goal + 1` cells, i.e.
`manhattan start goal` unit-cost edges. -/
theorem C1_astar_shortest (start goal : Cell) (grid : Grid)
    (hrect : ∀ row ∈ grid, row.length = gridW grid)
    (hzero : ∀ row ∈ grid, ∀ x ∈ row, x = 0)
    (hs : start ∈ boxFinset grid) (hg : goal ∈ boxFinset grid)
    (hM : manhattan start goal < 1000000000) :
    ∃ p, astar start goal grid = some p ∧
      p.length = manhattan start goal + 1 := by
  set st0 : AState :=
    { heap := [(manhattan start goal, start)]
      gscore := fun c => if c = start then some 0 else none
      fscore := fun c => if c = start then some (manhattan start goal) else none
      came := fun _ => none } with hst0
  have hinv0 : AInv start goal grid st0 := by
    rw [hst0]
    refine ⟨?_, ?_, ?_, ?_, ?_, ?_, ?_, ?_, ?_, ?_⟩
    · intro c hc
      by_cases h : c = start
      · exact Or.inl h
      · dsimp only at hc
        rw [if_neg h] at hc
        simp at hc
    · intro c v hv
      dsimp only at hv
      by_cases h : c = start
      · rw [if_pos h] at hv
        have hv0 : v = 0 := (Option.some.inj hv).symm
        subst hv0
        unfold domCard
        refine Nat.succ_le_of_lt (Finset.card_pos.2 ⟨start, ?_⟩)
        rw [Finset.mem_filter]
        refine ⟨Finset.mem_insert_self _ _, ?_⟩
        dsimp only
        rw [if_pos rfl]
        rfl
      · rw [if_neg h] at hv
        cases hv
    · intro e he
      simp only [List.mem_singleton] at he
      subst he
      dsimp only
      rw [if_pos rfl]
      rfl
    · intro e he v hv
      simp only [List.mem_singleton] at he
      subst he
      dsimp only at hv ⊢
      rw [if_pos rfl] at hv
      have hv0 : v = 0 := (Option.some.inj hv).symm
      subst hv0
      simp
    · intro c v hv
      dsimp only at hv
      by_cases h : c = start
      · subst h
        rw [if_pos rfl] at hv
        have hv0 : v = 0 := (Option.some.inj hv).symm
        subst hv0
        rw [manhattan_self]
      · rw [if_neg h] at hv
        cases hv
    · dsimp only
      rw [if_pos rfl]
    · intro c q hc
      cases hc
    · intro c q hc
      cases hc
    · intro c hc hcs
      dsimp only at hc
      rw [if_neg hcs] at hc
      simp at hc
    · rfl
  have hIJ0 : IJ start goal st0 := by
    have hjm : jmaxOf start goal st0 = 0 := by
      have hsub : ∀ j ∈ Jset start goal st0, j ≤ 0 := by
        intro j hj
        obtain ⟨hjM, hgj⟩ := Jset_mem_iff.1 hj
        rw [hst0] at hgj
        dsimp only at hgj
        by_cases h : geo start goal j = start
        · rw [if_pos h] at hgj
          have := Option.some.inj hgj
          omega
        · rw [if_neg h] at hgj
          cases hgj
      unfold jmaxOf
      exact Nat.eq_zero_of_le_zero (Finset.sup_le hsub)
    unfold IJ
    rw [hjm, geo_zero]
    refine ⟨manhattan start goal, le_refl _, ?_⟩
    rw [hst0]
    exact List.mem_singleton.2 rfl
  have hmu0 : mu start grid st0 < astarFuel grid := by
    have hlen1 : st0.heap.length = 1 := by
      rw [hst0]
      rfl
    have hsum : sumWeight start grid st0 ≤
        (gridH grid * gridW grid + 1) * BB grid := by
      unfold sumWeight
      refine le_trans (Finset.sum_le_card_nsmul _ _ (BB grid) ?_) ?_
      · intro c _
        unfold weight
        exact min_le_right _ _
      · rw [smul_eq_mul]
        exact Nat.mul_le_mul_right _ (univFinset_card start grid)
    unfold BB at hsum
    unfold mu astarFuel
    have hring : 5 * (gridH grid * gridW grid + 2) *
          (gridH grid * gridW grid + 2) =
        5 * ((gridH grid * gridW grid + 1) * (gridH grid * gridW grid + 2)) +
          5 * (gridH grid * gridW grid + 2) := by
      ring
    omega
  obtain ⟨p, hp, hlen⟩ := astarLoop_free hrect hzero hs hg hM
    (astarFuel grid) st0 hinv0 hIJ0 hmu0
  refine ⟨p, ?_, hlen⟩
  simp only [astar]
  rw [← hst0, hp]
  rfl

theorem C1_astar_shortest_witness :
    (∀ row ∈ ([[0, 0], [0, 0]] : Grid), row.length = gridW [[0, 0], [0, 0]]) ∧
    (∀ row ∈ ([[0, 0], [0, 0]] : Grid), ∀ x ∈ row, x = 0) ∧
    ((0, 0) : Cell) ∈ boxFinset [[0, 0], [0, 0]] ∧
    ((1, 1) : Cell) ∈ boxFinset [[0, 0], [0, 0]] ∧
    manhattan (0, 0) (1, 1) < 1000000000 ∧
    ∃ p, astar (0, 0) (1, 1) [[0, 0], [0, 0]] = some p ∧
      p.length = manhattan (0, 0) (1, 1) + 1 :=
  ⟨by decide, by decide, by decide, by decide, by decide,
    C1_astar_shortest (0, 0) (1, 1) [[0, 0], [0, 0]] (by decide) (by decide)
      (by decide) (by decide) (by decide)⟩

/-! ### The `1e9` sentinel: an obstacle-free grid that `astar` cannot cross

`gscore.get(neigh, 1e9)` treats `1e9` as infinity, so a tentative score of
`10^9` is never admitted: on a free `1 x (10^9 + 1)` strip the search stalls
one cell short of the far end and returns `None`. -/

def gridCE : Grid := [List.replicate 1000000001 0]

def goalCE : Cell := (0, 1000000000)

/-- Closed form of the search state after `k` pops on the strip: row `0`
columns `0..k` are settled with their exact distances, the single frontier
entry sits at column `k` with key `10^9`. -/
def ceState (k : ℕ) : AState :=
  { heap := [(1000000000, ((0 : ℤ), (k : ℤ)))]
    gscore := fun c =>
      if c.1 = 0 ∧ 0 ≤ c.2 ∧ c.2 ≤ (k : ℤ) then some c.2.toNat else none
    fscore := fun c =>
      if c.1 = 0 ∧ 0 ≤ c.2 ∧ c.2 ≤ (k : ℤ) then some 1000000000 else none
    came := fun c =>
      if c.1 = 0 ∧ 1 ≤ c.2 ∧ c.2 ≤ (k : ℤ) then some (0, c.2 - 1) else none }

theorem astarFuel_def (grid : Grid) : astarFuel grid =
    5 * (gridH grid * gridW grid + 2) * (gridH grid * gridW grid + 2) +
      gridH grid * gridW grid + 10 := rfl

theorem cellFree_gridCE (c : Cell) :
    cellFree gridCE c = true ↔ c.1 = 0 ∧ 0 ≤ c.2 ∧ c.2 < 1000000001 := by
  have hH : gridH gridCE = 1 := rfl
  have hW : gridW gridCE = 1000000001 := by
    unfold gridW gridCE
    rw [List.headD_cons, List.length_replicate]
  unfold cellFree
  by_cases h : 0 ≤ c.1 ∧ c.1 < (gridH gridCE : ℤ) ∧ 0 ≤ c.2 ∧
      c.2 < (gridW gridCE : ℤ)
  · rw [if_pos h]
    obtain ⟨h1, h2, h3, h4⟩ := h
    rw [hH] at h2
    rw [hW] at h4
    constructor
    · intro _
      refine ⟨by omega, h3, ?_⟩
      exact_mod_cast h4
    · intro _
      have hc1 : c.1.toNat = 0 := by omega
      rw [hc1]
      have hrow : gridCE.getD 0 [] = List.replicate 1000000001 0 := rfl
      rw [hrow]
      have hcn : c.2.toNat < 1000000001 := by omega
      rw [List.getD_eq_getElem _ 1
        (by rw [List.length_replicate]; exact hcn)]
      rw [List.getElem_replicate]
      rfl
  · rw [if_neg h]
    constructor
    · intro hf
      cases hf
    · rintro ⟨h1, h3, h4⟩
      refine absurd ⟨by omega, ?_, h3, ?_⟩ h
      · rw [hH]
        omega
      · rw [hW]
        exact_mod_cast h4

/-- A relaxation that is blocked or fails the improvement test leaves the
state untouched. -/
theorem relax_noop (goal : Cell) (grid : Grid) (current : Cell) (st : AState)
    (d : Cell) (h : cellFree grid (shift current d) = true →
      ¬ ((st.gscore current).getD 0 + 1 <
        (st.gscore (shift current d)).getD 1000000000)) :
    relax goal grid current st d = st := by
  unfold relax
  split_ifs with h1 h2
  · exact absurd h2 (h h1)
  · rfl
  · rfl

theorem AState_mk_congr (h1 h2 : List (ℕ × Cell)) (g1 g2 f1 f2 : Cell → Option ℕ)
    (c1 c2 : Cell → Option Cell) (eh : h1 = h2) (eg : g1 = g2) (ef : f1 = f2)
    (ec : c1 = c2) : AState.mk h1 g1 f1 c1 = AState.mk h2 g2 f2 c2 := by
  rw [eh, eg, ef, ec]

set_option maxRecDepth 4000 in
/-- One pop-and-expand step on the strip advances the closed-form state by
one column, as long as the new tentative score stays below the sentinel. -/
theorem ceExpand (k : ℕ) (hk : k < 999999999) :
    expand goalCE gridCE ((0 : ℤ), (k : ℤ)) { ceState k with heap := [] } =
      ceState (k + 1) := by
  have hcur : ({ ceState k with heap := [] } : AState).gscore
      ((0 : ℤ), (k : ℤ)) = some k := by
    show (if (0 : ℤ) = 0 ∧ 0 ≤ (k : ℤ) ∧ (k : ℤ) ≤ (k : ℤ) then
      some ((k : ℤ)).toNat else none) = some k
    rw [if_pos ⟨rfl, Int.natCast_nonneg k, le_refl _⟩, Int.toNat_natCast]
  have hnext : ({ ceState k with heap := [] } : AState).gscore
      ((0 : ℤ), (k : ℤ) + 1) = none := by
    show (if (0 : ℤ) = 0 ∧ 0 ≤ (k : ℤ) + 1 ∧ (k : ℤ) + 1 ≤ (k : ℤ) then
      some ((k : ℤ) + 1).toNat else none) = none
    rw [if_neg]
    rintro ⟨-, -, hle⟩
    omega
  have hr1 : relax goalCE gridCE ((0 : ℤ), (k : ℤ))
      { ceState k with heap := [] } ((1 : ℤ), (0 : ℤ)) =
      { ceState k with heap := [] } := by
    refine relax_noop _ _ _ _ _ ?_
    intro hfree
    obtain ⟨h1, -, -⟩ := (cellFree_gridCE _).1 hfree
    unfold shift at h1
    simp at h1
  have hr2 : relax goalCE gridCE ((0 : ℤ), (k : ℤ))
      { ceState k with heap := [] } ((-1 : ℤ), (0 : ℤ)) =
      { ceState k with heap := [] } := by
    refine relax_noop _ _ _ _ _ ?_
    intro hfree
    obtain ⟨h1, -, -⟩ := (cellFree_gridCE _).1 hfree
    unfold shift at h1
    simp at h1
  have hsh3 : shift ((0 : ℤ), (k : ℤ)) ((0 : ℤ), (1 : ℤ)) =
      ((0 : ℤ), (k : ℤ) + 1) := by
    simp [shift]
  have hfree3 : cellFree gridCE ((0 : ℤ), (k : ℤ) + 1) = true :=
    (cellFree_gridCE _).2 ⟨rfl, by show (0 : ℤ) ≤ (k : ℤ) + 1; omega,
      by show (k : ℤ) + 1 < 1000000001; omega⟩
  have hlt3 : (some k).getD 0 + 1 < (none : Option ℕ).getD 1000000000 := by
    simp only [Option.getD_some, Option.getD_none]
    omega
  have hman : manhattan ((0 : ℤ), (k : ℤ) + 1) goalCE =
      1000000000 - (k + 1) := by
    unfold manhattan goalCE
    dsimp only
    omega
  have hfire : relax goalCE gridCE ((0 : ℤ), (k : ℤ))
      { ceState k with heap := [] } ((0 : ℤ), (1 : ℤ)) = ceState (k + 1) := by
    unfold relax
    rw [hsh3, hcur, hnext, if_pos hfree3, if_pos hlt3]
    unfold ceState
    refine AState_mk_congr _ _ _ _ _ _ _ _ ?_ ?_ ?_ ?_
    · -- heap
      refine congrArg (fun x => [x]) ?_
      refine Prod.ext ?_ ?_
      · show (some k).getD 0 + 1 + manhattan ((0 : ℤ), (k : ℤ) + 1) goalCE =
          1000000000
        rw [hman]
        simp only [Option.getD_some]
        omega
      · refine Prod.ext rfl ?_
        show (k : ℤ) + 1 = ((k + 1 : ℕ) : ℤ)
        push_cast
        ring
    · -- gscore
      funext c
      by_cases hc : c = ((0 : ℤ), (k : ℤ) + 1)
      · subst hc
        rw [if_pos rfl, if_pos ⟨rfl, by show (0 : ℤ) ≤ (k : ℤ) + 1; omega,
          by show (k : ℤ) + 1 ≤ ((k + 1 : ℕ) : ℤ); push_cast; omega⟩]
        refine congrArg some ?_
        show (some k).getD 0 + 1 = ((k : ℤ) + 1).toNat
        simp only [Option.getD_some]
        omega
      · rw [if_neg hc]
        show (if c.1 = 0 ∧ 0 ≤ c.2 ∧ c.2 ≤ (k : ℤ) then some c.2.toNat
            else none) =
          (if c.1 = 0 ∧ 0 ≤ c.2 ∧ c.2 ≤ ((k + 1 : ℕ) : ℤ) then some c.2.toNat
            else none)
        by_cases h1 : c.1 = 0 ∧ 0 ≤ c.2 ∧ c.2 ≤ (k : ℤ)
        · obtain ⟨ha, hb, hcc⟩ := h1
          rw [if_pos ⟨ha, hb, hcc⟩, if_pos ⟨ha, hb, by push_cast; omega⟩]
        · have hno : ¬(c.1 = 0 ∧ 0 ≤ c.2 ∧ c.2 ≤ ((k + 1 : ℕ) : ℤ)) := by
            rintro ⟨ha, hb, hcc⟩
            push_cast at hcc
            by_cases h2 : c.2 ≤ (k : ℤ)
            · exact h1 ⟨ha, hb, h2⟩
            · exact hc (Prod.ext ha (by show c.2 = (k : ℤ) + 1; omega))
          rw [if_neg h1, if_neg hno]
    · -- fscore
      funext c
      by_cases hc : c = ((0 : ℤ), (k : ℤ) + 1)
      · subst hc
        rw [if_pos rfl, if_pos ⟨rfl, by show (0 : ℤ) ≤ (k : ℤ) + 1; omega,
          by show (k : ℤ) + 1 ≤ ((k + 1 : ℕ) : ℤ); push_cast; omega⟩]
        refine congrArg some ?_
        show (some k).getD 0 + 1 + manhattan ((0 : ℤ), (k : ℤ) + 1) goalCE =
          1000000000
        rw [hman]
        simp only [Option.getD_some]
        omega
      · rw [if_neg hc]
        show (if c.1 = 0 ∧ 0 ≤ c.2 ∧ c.2 ≤ (k : ℤ) then some 1000000000
            else none) =
          (if c.1 = 0 ∧ 0 ≤ c.2 ∧ c.2 ≤ ((k + 1 : ℕ) : ℤ) then some 1000000000
            else none)
        by_cases h1 : c.1 = 0 ∧ 0 ≤ c.2 ∧ c.2 ≤ (k : ℤ)
        · obtain ⟨ha, hb, hcc⟩ := h1
          rw [if_pos ⟨ha, hb, hcc⟩, if_pos ⟨ha, hb, by push_cast; omega⟩]
        · have hno : ¬(c.1 = 0 ∧ 0 ≤ c.2 ∧ c.2 ≤ ((k + 1 : ℕ) : ℤ)) := by
            rintro ⟨ha, hb, hcc⟩
            push_cast at hcc
            by_cases h2 : c.2 ≤ (k : ℤ)
            · exact h1 ⟨ha, hb, h2⟩
            · exact hc (Prod.ext ha (by show c.2 = (k : ℤ) + 1; omega))
          rw [if_neg h1, if_neg hno]
    · -- came
      funext c
      by_cases hc : c = ((0 : ℤ), (k : ℤ) + 1)
      · subst hc
        rw [if_pos rfl, if_pos ⟨rfl, by show (1 : ℤ) ≤ (k : ℤ) + 1; omega,
          by show (k : ℤ) + 1 ≤ ((k + 1 : ℕ) : ℤ); push_cast; omega⟩]
        refine congrArg some ?_
        refine Prod.ext rfl ?_
        show (k : ℤ) = ((k : ℤ) + 1) - 1
        ring
      · rw [if_neg hc]
        show (if c.1 = 0 ∧ 1 ≤ c.2 ∧ c.2 ≤ (k : ℤ) then
            some ((0 : ℤ), c.2 - 1) else none) =
          (if c.1 = 0 ∧ 1 ≤ c.2 ∧ c.2 ≤ ((k + 1 : ℕ) : ℤ) then
            some ((0 : ℤ), c.2 - 1) else none)
        by_cases h1 : c.1 = 0 ∧ 1 ≤ c.2 ∧ c.2 ≤ (k : ℤ)
        · obtain ⟨ha, hb, hcc⟩ := h1
          rw [if_pos ⟨ha, hb, hcc⟩, if_pos ⟨ha, hb, by push_cast; omega⟩]
        · have hno : ¬(c.1 = 0 ∧ 1 ≤ c.2 ∧ c.2 ≤ ((k + 1 : ℕ) : ℤ)) := by
            rintro ⟨ha, hb, hcc⟩
            push_cast at hcc
            by_cases h2 : c.2 ≤ (k : ℤ)
            · exact h1 ⟨ha, hb, h2⟩
            · exact hc (Prod.ext ha (by show c.2 = (k : ℤ) + 1; omega))
          rw [if_neg h1, if_neg hno]
  have hr4 : relax goalCE gridCE ((0 : ℤ), (k : ℤ)) (ceState (k + 1))
      ((0 : ℤ), (-1 : ℤ)) = ceState (k + 1) := by
    refine relax_noop _ _ _ _ _ ?_
    intro hfree
    obtain ⟨-, hge, -⟩ := (cellFree_gridCE _).1 hfree
    unfold shift at hge
    dsimp only at hge
    have hcur' : (ceState (k + 1)).gscore ((0 : ℤ), (k : ℤ)) = some k := by
      show (if (0 : ℤ) = 0 ∧ 0 ≤ (k : ℤ) ∧ (k : ℤ) ≤ ((k + 1 : ℕ) : ℤ) then
        some ((k : ℤ)).toNat else none) = some k
      rw [if_pos ⟨rfl, Int.natCast_nonneg k, by push_cast; omega⟩,
        Int.toNat_natCast]
    have hprev : (ceState (k + 1)).gscore
        (shift ((0 : ℤ), (k : ℤ)) ((0 : ℤ), (-1 : ℤ))) =
        some ((k : ℤ) + -1).toNat := by
      show (if (0 : ℤ) + 0 = 0 ∧ 0 ≤ (k : ℤ) + -1 ∧
          (k : ℤ) + -1 ≤ ((k + 1 : ℕ) : ℤ) then
        some ((k : ℤ) + -1).toNat else none) = some ((k : ℤ) + -1).toNat
      rw [if_pos ⟨by omega, hge, by push_cast; omega⟩]
    rw [hcur', hprev]
    simp only [Option.getD_some]
    omega
  show List.foldl (relax goalCE gridCE ((0 : ℤ), (k : ℤ)))
    { ceState k with heap := [] } nbrDirs = ceState (k + 1)
  unfold nbrDirs
  simp only [List.foldl_cons, List.foldl_nil]
  rw [hr1, hr2, hfire, hr4]

/-- At column `10^9 - 1` the tentative score `10^9` fails the
`< gscore.get(neigh, 1e9)` test against the sentinel default, so the
expansion is a complete no-op and the frontier empties. -/
theorem ceExpandLast (k : ℕ) (hk : k = 999999999) :
    expand goalCE gridCE ((0 : ℤ), (k : ℤ)) { ceState k with heap := [] } =
      { ceState k with heap := [] } := by
  have hcur : ({ ceState k with heap := [] } : AState).gscore
      ((0 : ℤ), (k : ℤ)) = some k := by
    show (if (0 : ℤ) = 0 ∧ 0 ≤ (k : ℤ) ∧ (k : ℤ) ≤ (k : ℤ) then
      some ((k : ℤ)).toNat else none) = some k
    rw [if_pos ⟨rfl, Int.natCast_nonneg k, le_refl _⟩, Int.toNat_natCast]
  have hnext : ({ ceState k with heap := [] } : AState).gscore
      ((0 : ℤ), (k : ℤ) + 1) = none := by
    show (if (0 : ℤ) = 0 ∧ 0 ≤ (k : ℤ) + 1 ∧ (k : ℤ) + 1 ≤ (k : ℤ) then
      some ((k : ℤ) + 1).toNat else none) = none
    rw [if_neg]
    rintro ⟨-, -, hle⟩
    omega
  have hr1 : relax goalCE gridCE ((0 : ℤ), (k : ℤ))
      { ceState k with heap := [] } ((1 : ℤ), (0 : ℤ)) =
      { ceState k with heap := [] } := by
    refine relax_noop _ _ _ _ _ ?_
    intro hfree
    obtain ⟨h1, -, -⟩ := (cellFree_gridCE _).1 hfree
    unfold shift at h1
    simp at h1
  have hr2 : relax goalCE gridCE ((0 : ℤ), (k : ℤ))
      { ceState k with heap := [] } ((-1 : ℤ), (0 : ℤ)) =
      { ceState k with heap := [] } := by
    refine relax_noop _ _ _ _ _ ?_
    intro hfree
    obtain ⟨h1, -, -⟩ := (cellFree_gridCE _).1 hfree
    unfold shift at h1
    simp at h1
  have hr3 : relax goalCE gridCE ((0 : ℤ), (k : ℤ))
      { ceState k with heap := [] } ((0 : ℤ), (1 : ℤ)) =
      { ceState k with heap := [] } := by
    refine relax_noop _ _ _ _ _ ?_
    intro _
    have hsh3 : shift ((0 : ℤ), (k : ℤ)) ((0 : ℤ), (1 : ℤ)) =
        ((0 : ℤ), (k : ℤ) + 1) := by
      simp [shift]
    rw [hsh3, hcur, hnext]
    simp only [Option.getD_some, Option.getD_none]
    omega
  have hr4 : relax goalCE gridCE ((0 : ℤ), (k : ℤ))
      { ceState k with heap := [] } ((0 : ℤ), (-1 : ℤ)) =
      { ceState k with heap := [] } := by
    refine relax_noop _ _ _ _ _ ?_
    intro hfree
    obtain ⟨-, hge, -⟩ := (cellFree_gridCE _).1 hfree
    unfold shift at hge
    dsimp only at hge
    have hprev : ({ ceState k with heap := [] } : AState).gscore
        (shift ((0 : ℤ), (k : ℤ)) ((0 : ℤ), (-1 : ℤ))) =
        some ((k : ℤ) + -1).toNat := by
      show (if (0 : ℤ) + 0 = 0 ∧ 0 ≤ (k : ℤ) + -1 ∧
          (k : ℤ) + -1 ≤ (k : ℤ) then
        some ((k : ℤ) + -1).toNat else none) = some ((k : ℤ) + -1).toNat
      rw [if_pos ⟨by omega, hge, by omega⟩]
    rw [hcur, hprev]
    simp only [Option.getD_some]
    omega
  show List.foldl (relax goalCE gridCE ((0 : ℤ), (k : ℤ)))
    { ceState k with heap := [] } nbrDirs = { ceState k with heap := [] }
  unfold nbrDirs
  simp only [List.foldl_cons, List.foldl_nil]
  rw [hr1, hr2, hr3, hr4]

theorem cePop (k : ℕ) : heapPop (ceState k).heap =
    some ((1000000000, ((0 : ℤ), (k : ℤ))), []) := by
  show some ((1000000000, ((0 : ℤ), (k : ℤ))),
      eraseEntry [(1000000000, ((0 : ℤ), (k : ℤ)))]
        (1000000000, ((0 : ℤ), (k : ℤ)))) =
    some ((1000000000, ((0 : ℤ), (k : ℤ))), [])
  rw [show eraseEntry [(1000000000, ((0 : ℤ), (k : ℤ)))]
      (1000000000, ((0 : ℤ), (k : ℤ))) = [] from by
    unfold eraseEntry
    rw [if_pos rfl]]

/-- Running the loop from the closed-form state at any column ends with an
exhausted frontier and the source's `None`. -/
theorem ceLoop : ∀ (m k fuel : ℕ), k + m = 999999999 → m + 2 ≤ fuel →
    astarLoop goalCE gridCE fuel (ceState k) = some none := by
  intro m
  induction m with
  | zero =>
    intro k fuel hkm hf
    obtain rfl : k = 999999999 := by omega
    obtain ⟨f, rfl⟩ : ∃ f, fuel = f + 1 := ⟨fuel - 1, by omega⟩
    rw [astarLoop_pop goalCE gridCE f (ceState 999999999)
      (1000000000, ((0 : ℤ), ((999999999 : ℕ) : ℤ))) [] (cePop 999999999)]
    have hne : ¬(((1000000000,
        ((0 : ℤ), ((999999999 : ℕ) : ℤ))) : ℕ × Cell).2 = goalCE) := by
      intro h
      unfold goalCE at h
      rw [Prod.ext_iff] at h
      have h2 : ((999999999 : ℕ) : ℤ) = 1000000000 := h.2
      omega
    rw [if_neg hne]
    show astarLoop goalCE gridCE f (expand goalCE gridCE
      ((0 : ℤ), ((999999999 : ℕ) : ℤ))
      { ceState 999999999 with heap := [] }) = some none
    rw [ceExpandLast 999999999 rfl]
    obtain ⟨f', rfl⟩ : ∃ f', f = f' + 1 := ⟨f - 1, by omega⟩
    rw [astarLoop_succ]
    rfl
  | succ m ih =>
    intro k fuel hkm hf
    obtain ⟨f, rfl⟩ : ∃ f, fuel = f + 1 := ⟨fuel - 1, by omega⟩
    rw [astarLoop_pop goalCE gridCE f (ceState k)
      (1000000000, ((0 : ℤ), (k : ℤ))) [] (cePop k)]
    have hne : ¬(((1000000000, ((0 : ℤ), (k : ℤ))) : ℕ × Cell).2 =
        goalCE) := by
      intro h
      unfold goalCE at h
      rw [Prod.ext_iff] at h
      have h2 : ((k : ℕ) : ℤ) = 1000000000 := h.2
      omega
    rw [if_neg hne]
    show astarLoop goalCE gridCE f (expand goalCE gridCE
      ((0 : ℤ), (k : ℤ)) { ceState k with heap := [] }) = some none
    rw [ceExpand k (by omega)]
    exact ih (k + 1) f (by omega) (by omega)

/-- The initial `astar` state on the strip is the closed form at column 0. -/
theorem ceInit :
    ({ heap := [(manhattan ((0 : ℤ), (0 : ℤ)) goalCE, ((0 : ℤ), (0 : ℤ)))]
       gscore := fun c => if c = ((0 : ℤ), (0 : ℤ)) then some 0 else none
       fscore := fun c => if c = ((0 : ℤ), (0 : ℤ)) then
         some (manhattan ((0 : ℤ), (0 : ℤ)) goalCE) else none
       came := fun _ => none } : AState) = ceState 0 := by
  have hman0 : manhattan ((0 : ℤ), (0 : ℤ)) goalCE = 1000000000 := by
    unfold manhattan goalCE
    dsimp only
    omega
  unfold ceState
  refine AState_mk_congr _ _ _ _ _ _ _ _ ?_ ?_ ?_ ?_
  · refine congrArg (fun x => [x]) ?_
    refine Prod.ext ?_ ?_
    · exact hman0
    · refine Prod.ext rfl ?_
      show (0 : ℤ) = ((0 : ℕ) : ℤ)
      simp
  · funext c
    by_cases hc : c = ((0 : ℤ), (0 : ℤ))
    · subst hc
      rw [if_pos rfl,
        if_pos ⟨rfl, le_refl _, by show (0 : ℤ) ≤ ((0 : ℕ) : ℤ); simp⟩]
      rfl
    · rw [if_neg hc]
      have hno : ¬(c.1 = 0 ∧ 0 ≤ c.2 ∧ c.2 ≤ ((0 : ℕ) : ℤ)) := by
        rintro ⟨ha, hb, hcc⟩
        push_cast at hcc
        exact hc (Prod.ext ha (by show c.2 = (0 : ℤ); omega))
      rw [if_neg hno]
  · funext c
    by_cases hc : c = ((0 : ℤ), (0 : ℤ))
    · subst hc
      rw [if_pos rfl,
        if_pos ⟨rfl, le_refl _, by show (0 : ℤ) ≤ ((0 : ℕ) : ℤ); simp⟩]
      rw [hman0]
    · rw [if_neg hc]
      have hno : ¬(c.1 = 0 ∧ 0 ≤ c.2 ∧ c.2 ≤ ((0 : ℕ) : ℤ)) := by
        rintro ⟨ha, hb, hcc⟩
        push_cast at hcc
        exact hc (Prod.ext ha (by show c.2 = (0 : ℤ); omega))
      rw [if_neg hno]
  · funext c
    have hno : ¬(c.1 = 0 ∧ 1 ≤ c.2 ∧ c.2 ≤ ((0 : ℕ) : ℤ)) := by
      rintro ⟨-, hb, hcc⟩
      push_cast at hcc
      omega
    rw [if_neg hno]

/-- Claim C1 counterexample: the obstacle-free `1 x (10^9 + 1)` strip.
Start `(0,0)` and goal `(0,10^9)` are mutually reachable on it, yet
`astar` returns `None` rather than a shortest path, because the tentative
score `10^9` is never admitted against the `1e9` sentinel default. -/
theorem C1_counterexample :
    (∀ row ∈ gridCE, ∀ x ∈ row, x = 0) ∧
    ((0, 0) : Cell) ∈ boxFinset gridCE ∧
    ((0, 1000000000) : Cell) ∈ boxFinset gridCE ∧
    manhattan (0, 0) (0, 1000000000) = 1000000000 ∧
    astar (0, 0) (0, 1000000000) gridCE = none := by
  have hH : gridH gridCE = 1 := rfl
  have hW : gridW gridCE = 1000000001 := by
    unfold gridW gridCE
    rw [List.headD_cons, List.length_replicate]
  refine ⟨?_, ?_, ?_, ?_, ?_⟩
  · intro row hr x hx
    unfold gridCE at hr
    rw [List.mem_singleton] at hr
    subst hr
    exact List.eq_of_mem_replicate hx
  · unfold boxFinset
    rw [Finset.mem_product, Finset.mem_Ico, Finset.mem_Ico, hH, hW]
    refine ⟨⟨le_refl _, ?_⟩, le_refl _, ?_⟩
    · show (0 : ℤ) < ((1 : ℕ) : ℤ)
      simp
    · show (0 : ℤ) < ((1000000001 : ℕ) : ℤ)
      push_cast
  · unfold boxFinset
    rw [Finset.mem_product, Finset.mem_Ico, Finset.mem_Ico, hH, hW]
    refine ⟨⟨le_refl _, ?_⟩, ?_, ?_⟩
    · show (0 : ℤ) < ((1 : ℕ) : ℤ)
      simp
    · show (0 : ℤ) ≤ (1000000000 : ℤ)
      norm_num
    · show (1000000000 : ℤ) < ((1000000001 : ℕ) : ℤ)
      push_cast
  · show ((0 : ℤ) - 0).natAbs + ((0 : ℤ) - 1000000000).natAbs = 1000000000
    omega
  · have hfuel : 999999999 + 2 ≤ astarFuel gridCE := by
      rw [astarFuel_def, hH, hW]
      norm_num
    have hloop := ceLoop 999999999 0 (astarFuel gridCE) (by omega) hfuel
    show astar ((0 : ℤ), (0 : ℤ)) goalCE gridCE = none
    simp only [astar]
    rw [ceInit, hloop]
    rfl
